import Mathlib

/-!
# MemoryManagement: the worst-fit heap of `heap.h`

A shallow embedding of the classes `MemControlBlock` and `Heap` of `src/heap.h`, and theorems
about `allocateMemoryWorstFit`, `worstFitFinder`, `rounder` and `deallocateMemory`.

Conventions of the embedding

* The byte array `memory` is kept as its length only; an address is a byte offset from the start
  of the array.  A pointer is an `Option Nat`, `none` being `nullptr`.
* The `MemControlBlock` objects living in the array are kept in a map from address to object
  (`Heap.blocks`).  Every member access of the source is one `load` or `modify` of that map, in the
  order of the source, so aliasing between `curMCB->previous`, `curMCB->next` ... is kept.
* `size_t` is 64 bit, `int` is 32 bit two's complement and `sizeof(MemControlBlock)` is 32 (a
  `bool` padded to 8 bytes, a `size_t` and two pointers), the LP64 layout.  Conversions between the
  two are explicit (`toInt`, `toSizeT`).
* Undefined behaviour (a member access through `nullptr`, a header written past the end of the
  array, ...) is an `Except.error`.  Loops take fuel; running out of it is the error
  `Fault.outOfFuel`.
-/

namespace MemoryManagement

/-- Ways in which a run leaves the behaviour the model describes. -/
inductive Fault where
  /-- A member is read or written through `nullptr`. -/
  | nullDeref
  /-- A member is read or written through a pointer at which no `MemControlBlock` lives, or a
  header is placed outside the block it is carved from or past the end of the array. -/
  | wildPointer
  /-- The destructor runs `delete` on a pointer into the arena. -/
  | invalidDelete
  /-- A loop of the source did not finish within the fuel given to the model. -/
  | outOfFuel
  deriving DecidableEq, Repr

/-- A pointer: `none` is `nullptr`, `some a` is the address `memory + a`. -/
abbrev Ptr := Option Nat

/-- The value of `sizeof(MemControlBlock)`. -/
def sizeofMCB : Nat := 32

/-- Conversion of an `int` to `size_t` (value modulo `2 ^ 64`). -/
def toSizeT (i : Int) : Nat := (i % 2 ^ 64).toNat

/-- Conversion of a `size_t` to `int` (the low 32 bits, read as two's complement). -/
def toInt (n : Nat) : Int :=
  if n % 2 ^ 32 < 2 ^ 31 then ((n % 2 ^ 32 : Nat) : Int) else ((n % 2 ^ 32 : Nat) : Int) - 2 ^ 32

/-- Addition of two `size_t` values. -/
def addSize (a b : Nat) : Nat := (a + b) % 2 ^ 64

/-- Subtraction of two `size_t` values. -/
def subSize (a b : Nat) : Nat := (a % 2 ^ 64 + (2 ^ 64 - b % 2 ^ 64)) % 2 ^ 64

/-- The class `MemControlBlock`: the header in front of every block of the arena. -/
structure MemControlBlock where
  /-- True if the header is before a block of available memory. -/
  available : Bool
  /-- The size of the following block of memory, in bytes (a `size_t`). -/
  size : Nat
  previous : Ptr
  next : Ptr
  deriving DecidableEq, Repr

/-- The constructor `MemControlBlock(const bool availableIn, const int sizeIn)`: the `int`
argument initialises the `size_t` member, both links are `nullptr`. -/
def MemControlBlock.construct (availableIn : Bool) (sizeIn : Int) : MemControlBlock :=
  { available := availableIn, size := toSizeT sizeIn, previous := none, next := none }

/-- The class `Heap`: `memory` is the length of the array `new char[sizeIn]`, `startOfHeap` the
head of the list, `blocks` the `MemControlBlock` objects that live in the array. -/
structure Heap where
  memory : Nat
  startOfHeap : Ptr
  blocks : Nat → Option MemControlBlock

namespace Heap

/-- Read the object a pointer points to. -/
def load (h : Heap) (p : Ptr) : Except Fault MemControlBlock :=
  match p with
  | none => .error .nullDeref
  | some a =>
    match h.blocks a with
    | none => .error .wildPointer
    | some b => .ok b

/-- Put an object at an address (placement new, or the write-back of a member). -/
def store (h : Heap) (a : Nat) (b : MemControlBlock) : Heap :=
  { h with blocks := fun x => if x = a then some b else h.blocks x }

/-- Write members of the object a pointer points to. -/
def modify (h : Heap) (p : Ptr) (f : MemControlBlock → MemControlBlock) : Except Fault Heap :=
  match p with
  | none => .error .nullDeref
  | some a =>
    match h.blocks a with
    | none => .error .wildPointer
    | some b => .ok (h.store a (f b))

/-- The heap the constructor `Heap(const size_t sizeIn)` leaves when the array can hold the
header (`sizeofMCB ≤ sizeIn`): one header at the start of the array, built from
`sizeIn - sizeof(MemControlBlock)` (a `size_t` subtraction, passed as `int`).  The constructor
together with the bound of the array is `newHeap`. -/
def construct (sizeIn : Nat) : Heap :=
  { memory := sizeIn
    startOfHeap := some 0
    blocks := fun x =>
      if x = 0 then some (MemControlBlock.construct true (toInt (subSize sizeIn sizeofMCB)))
      else none }

/-- The constructor `Heap(const size_t sizeIn)` with the bound of the array `new char[sizeIn]`.
The source makes no test of `sizeIn`: the header of `sizeof(MemControlBlock)` bytes is placed at
offset 0 whatever the length of the array.  When the array is shorter than the header the
placement writes past its end, which is undefined behaviour (`Fault.wildPointer`); otherwise
the heap is `construct sizeIn`. -/
def newHeap (sizeIn : Nat) : Except Fault Heap :=
  if sizeIn < sizeofMCB then throw Fault.wildPointer
  else pure (construct sizeIn)

/-- The method `print`, returning for every block of the list what the source writes to `cout`:
whether it is free, and its size. -/
def printFrom (h : Heap) : Nat → Ptr → Except Fault (List (Bool × Nat))
  | 0, _ => .error .outOfFuel
  | fuel + 1, curr =>
    if curr != none then do
      let c ← h.load curr
      let rest ← printFrom h fuel c.next
      pure ((c.available, c.size) :: rest)
    else pure []

/-- See `printFrom`: the traversal starts at `startOfHeap`. -/
def print (h : Heap) (fuel : Nat) : Except Fault (List (Bool × Nat)) :=
  h.printFrom fuel h.startOfHeap

/-- The method `rounder`. -/
def rounder (requestedToRound : Nat) : Nat :=
  let rounded := requestedToRound
  if rounded % 4 ≠ 0 then addSize rounded (4 - rounded % 4) else rounded

/-- The inner loop of `worstFitFinder`,
`while ( !biggest->available && biggest != nullptr ) biggest = biggest->next;`.
The member `available` is read before the pointer is compared with `nullptr`. -/
def skipUnavailable (h : Heap) : Nat → Ptr → Except Fault Ptr
  | 0, _ => .error .outOfFuel
  | fuel + 1, biggest => do
    let b ← h.load biggest
    if !b.available && biggest != none then skipUnavailable h fuel b.next
    else pure biggest

/-- The loop `while (curr != nullptr)` of `worstFitFinder` together with the statements after it:
the value is what `worstFitFinder` returns when the loop is entered with `curr` and `biggest`. -/
def worstFitLoop (h : Heap) (requestedRounded : Nat) : Nat → Ptr → Ptr → Except Fault Ptr
  | 0, _, _ => .error .outOfFuel
  | fuel + 1, curr, biggest =>
    if curr != none then do
      let biggest ← h.skipUnavailable (fuel + 1) biggest
      if biggest == none then pure none
      else do
        let c ← h.load curr
        let g ← h.load biggest
        let biggest :=
          if c.available && decide (c.size ≥ requestedRounded) && decide (c.size ≥ g.size)
          then curr else biggest
        worstFitLoop h requestedRounded fuel c.next biggest
    else do
      let g ← h.load biggest
      if !g.available then pure none else pure biggest

/-- The method `worstFitFinder`. -/
def worstFitFinder (h : Heap) (fuel : Nat) (requestedRounded : Nat) : Except Fault Ptr := do
  let s ← h.load h.startOfHeap
  if s.next == none then pure h.startOfHeap
  else h.worstFitLoop requestedRounded fuel h.startOfHeap h.startOfHeap

/-- The method `allocateMemoryWorstFit`; the value is the heap after the call and the pointer
returned. -/
def allocateMemoryWorstFit (h : Heap) (fuel : Nat) (requested : Nat) :
    Except Fault (Heap × Ptr) := do
  let sizeToAllocate : Int := toInt (rounder requested)
  let memHole ← h.worstFitFinder fuel (toSizeT sizeToAllocate)
  -- line 105 reads `memHole->next` before `memHole` is compared with `nullptr`
  let m ← h.load memHole
  if m.next == none && toSizeT sizeToAllocate == m.size then do
    let h ← h.modify memHole (fun b => { b with size := addSize b.size (toSizeT sizeToAllocate) })
    let h ← h.modify memHole (fun b => { b with available := false })
    pure (h, memHole.map (· + sizeofMCB))
  else
    match memHole with
    | none => pure (h, none)
    | some x => do
      let h ← h.modify (some x) (fun b => { b with available := false })
      let sizeOf : Int := sizeofMCB
      let m ← h.load (some x)
      let spareSpace : Int := toInt (subSize m.size (toSizeT sizeToAllocate))
      if spareSpace ≥ sizeOf then do
        -- `x + sizeof(MemControlBlock) + sizeToAllocate` with a negative `int` points in front
        -- of the payload of `memHole`
        if sizeToAllocate < 0 then throw Fault.wildPointer
        else do
          let newMCBAddress : Nat := x + sizeofMCB + sizeToAllocate.toNat
          let newMemBlockSize : Nat := subSize (toSizeT spareSpace) sizeofMCB
          let newOne : Nat := newMCBAddress
          let h := h.store newOne (MemControlBlock.construct true (toInt newMemBlockSize))
          let m ← h.load (some x)
          let h ← if m.next != none then h.modify m.next (fun b => { b with previous := some newOne })
            else pure h
          let h ← h.modify (some newOne) (fun b => { b with previous := some x })
          let m ← h.load (some x)
          let h ← h.modify (some newOne) (fun b => { b with next := m.next })
          let h ← h.modify (some x) (fun b => { b with next := some newOne })
          let m ← h.load (some x)
          let n ← h.load (some newOne)
          let h ← h.modify (some x)
            (fun b => { b with size := subSize (subSize m.size n.size) (toSizeT sizeOf) })
          pure (h, some (x + sizeofMCB))
      else pure (h, none)

/-- The destructor `~MemControlBlock()`, `delete previous; delete next;`, run on the object at
`p`.  Deleting `nullptr` does nothing; the bytes of the object stay in the array. -/
def destroy (h : Heap) (p : Ptr) : Except Fault Heap := do
  let b ← h.load p
  if b.previous != none then throw Fault.invalidDelete
  else if b.next != none then throw Fault.invalidDelete
  else pure h

/-- The method `deallocateMemory`. -/
def deallocateMemory (h : Heap) (toDeallocate : Nat) : Except Fault Heap := do
  if toDeallocate < sizeofMCB then throw Fault.wildPointer
  else do
    let curMCB : Ptr := some (toDeallocate - sizeofMCB)
    let h ← h.modify curMCB (fun b => { b with available := true })
    -- line 211
    let cur ← h.load curMCB
    let mergePrevious ←
      if cur.previous != none then do
        let p ← h.load cur.previous
        pure p.available
      else pure false
    let h ←
      if mergePrevious then do
        -- line 213
        let cur ← h.load curMCB
        let p ← h.load cur.previous
        let h ← h.modify cur.previous
          (fun b => { b with size := addSize (addSize p.size sizeofMCB) cur.size })
        -- line 215
        let cur ← h.load curMCB
        let h ← h.modify cur.previous (fun b => { b with next := cur.next })
        -- line 216
        let cur ← h.load curMCB
        if cur.next != none then h.modify cur.next (fun b => { b with previous := cur.previous })
        else pure h
      else pure h
    -- line 220
    let cur ← h.load curMCB
    let mergeNext ←
      if cur.next != none then do
        let n ← h.load cur.next
        pure n.available
      else pure false
    let h ←
      if mergeNext then do
        -- line 221
        let cur ← h.load curMCB
        let p ← h.load cur.previous
        let n ← h.load cur.next
        let h ← h.modify cur.previous
          (fun b => { b with size := addSize (addSize p.size sizeofMCB) n.size })
        -- line 222
        let cur ← h.load curMCB
        let n ← h.load cur.next
        let h ← h.modify cur.previous (fun b => { b with next := n.next })
        -- line 223
        let cur ← h.load curMCB
        let n ← h.load cur.next
        let h ← h.modify n.next (fun b => { b with previous := cur.previous })
        -- line 224
        let cur ← h.load curMCB
        let h ← h.modify cur.next (fun b => { b with next := none })
        -- line 225
        let cur ← h.load curMCB
        h.modify cur.next (fun b => { b with previous := none })
      else pure h
    -- lines 229-232
    let h ← h.modify curMCB (fun b => { b with previous := none })
    let h ← h.modify curMCB (fun b => { b with next := none })
    h.destroy curMCB

/-- Sum, over the blocks `print` visits, of the header size plus the block size. -/
def total (h : Heap) (fuel : Nat) : Except Fault Nat := do
  let out ← h.print fuel
  pure (out.map (fun p => sizeofMCB + p.2)).sum

end Heap

/-- A call of the public interface of `Heap`. -/
inductive Call where
  | allocate (requested : Nat)
  | deallocate (toDeallocate : Nat)

namespace Heap

/-- Run calls one after the other; the pointers returned by the `allocate` calls are collected. -/
def run (h : Heap) (fuel : Nat) : List Call → Except Fault (Heap × List Ptr)
  | [] => pure (h, [])
  | .allocate n :: cs => do
    let (h1, p) ← h.allocateMemoryWorstFit fuel n
    let (h2, ps) ← run h1 fuel cs
    pure (h2, p :: ps)
  | .deallocate a :: cs => do
    let h1 ← h.deallocateMemory a
    run h1 fuel cs

/-- What a caller sees of `run`: the pointers returned and what `print` shows afterwards. -/
def trace (h : Heap) (fuel : Nat) (cs : List Call) :
    Except Fault (List Ptr × List (Bool × Nat)) := do
  let (h1, ps) ← h.run fuel cs
  let out ← h1.print fuel
  pure (ps, out)

end Heap

/-- Headers of blocks laid out one after the other from address `a`, the first one having
`prev` as its `previous`: the map from address to header. -/
def layout (prev : Ptr) (a : Nat) : List (Bool × Nat) → Nat → Option MemControlBlock
  | [], _ => none
  | (av, sz) :: rest, x =>
    if x = a then
      some { available := av, size := sz, previous := prev,
             next := if rest.isEmpty then none else some (a + sizeofMCB + sz) }
    else layout (some a) (a + sizeofMCB + sz) rest x

/-- The heap whose arena is exactly filled by blocks of the given flags and sizes. -/
def Heap.ofBlocks (bs : List (Bool × Nat)) : Heap :=
  { memory := (bs.map (fun p => sizeofMCB + p.2)).sum
    startOfHeap := if bs.isEmpty then none else some 0
    blocks := layout none 0 bs }

/-- The header at index `i` of the address list `l` exists, its links point to its neighbours in
`l` (`nullptr` at either end), its size is a `size_t`, and its block ends where the next header
starts (at the end of the arena for the last one). -/
def wfAt (h : Heap) (l : List Nat) (i : Nat) : Bool :=
  match l[i]? with
  | none => false
  | some a =>
    match h.blocks a with
    | none => false
    | some b =>
      b.previous == (if i = 0 then none else l[i - 1]?) &&
      b.next == l[i + 1]? &&
      decide (b.size < 2 ^ 64) &&
      a + sizeofMCB + b.size == (l[i + 1]?).getD h.memory

/-- The block list of `h` is well formed and `l` lists the addresses of its headers, from
`startOfHeap` on. -/
def WellFormed (h : Heap) (l : List Nat) : Prop :=
  l ≠ [] ∧ h.startOfHeap = l[0]? ∧ ∀ i, i < l.length → wfAt h l i = true

instance (h : Heap) (l : List Nat) : Decidable (WellFormed h l) :=
  inferInstanceAs
    (Decidable (l ≠ [] ∧ h.startOfHeap = l[0]? ∧ ∀ i, i < l.length → wfAt h l i = true))

/-- No two neighbours of a list of `print` records are both free. -/
def noAdjacentFree : List (Bool × Nat) → Bool
  | x :: y :: rest => !(x.1 && y.1) && noAdjacentFree (y :: rest)
  | _ => true


namespace Heap

/-- The value of `total` after a run of calls. -/
def totalAfter (h : Heap) (fuel : Nat) (cs : List Call) : Except Fault Nat := do
  let (h1, _) ← h.run fuel cs
  h1.total fuel

end Heap

/-- The block at `c` is available and at least as large as every available block of size
at least `r` among the first `i` blocks of `l`. -/
def Best (h : Heap) (l : List Nat) (r i c : Nat) : Prop :=
  ∃ bc, h.blocks c = some bc ∧ bc.available = true ∧ c ∈ l ∧
    ∀ j, j < i → ∀ a b, l[j]? = some a → h.blocks a = some b → b.available = true →
      r ≤ b.size → b.size ≤ bc.size

/-- What `print` writes for the header at address `a`. -/
def obs (h : Heap) (a : Nat) : Bool × Nat :=
  match h.blocks a with
  | some b => (b.available, b.size)
  | none => (false, 0)

/-- The list `l` is the chain of `next` links of `h` from `startOfHeap` to `nullptr`. -/
def Linked (h : Heap) (l : List Nat) : Prop :=
  h.startOfHeap = l[0]? ∧ ∀ j a, l[j]? = some a → ∃ b, h.blocks a = some b ∧ b.next = l[j + 1]?

/-- In the list `l` no two neighbours are both available in `h`. -/
def Separated (h : Heap) (l : List Nat) : Prop :=
  ∀ j x y, l[j]? = some x → l[j + 1]? = some y → ¬ ((obs h x).1 = true ∧ (obs h y).1 = true)

/-- Free blocks of 40, 10 and 25 bytes kept apart by blocks in use. -/
def threeHoles : Heap :=
  Heap.ofBlocks [(true, 40), (false, 8), (true, 10), (false, 8), (true, 25)]

/-- A free block of 16 bytes followed by a block in use. -/
def holeThenUsed : Heap := Heap.ofBlocks [(true, 16), (false, 16)]

/-- A block in use followed by a free block that ends the arena. -/
def usedThenHole : Heap := Heap.ofBlocks [(false, 16), (true, 16)]

/-- A free block, two blocks in use and a free block. -/
def holeUsedUsedHole : Heap := Heap.ofBlocks [(true, 16), (false, 16), (false, 16), (true, 8)]

/-- The block `c` sits at index `k` of `l`, is available, and every available block of size at
least `r` at an index strictly between `k` and `i` is strictly smaller than it. -/
def LastBest (h : Heap) (l : List Nat) (r i k c : Nat) : Prop :=
  l[k]? = some c ∧ ∃ bc, h.blocks c = some bc ∧ bc.available = true ∧
    ∀ j, k < j → j < i → ∀ a b, l[j]? = some a → h.blocks a = some b → b.available = true →
      r ≤ b.size → b.size < bc.size

/-- The headers found at the given addresses after `deallocateMemory`. -/
def Heap.headersAfterFree (h : Heap) (toDeallocate : Nat) (addrs : List Nat) :
    Except Fault (List (Option MemControlBlock)) := do
  let h1 ← h.deallocateMemory toDeallocate
  pure (addrs.map h1.blocks)

/-- A single block of 64 bytes, in use. -/
def usedOnly : Heap := Heap.ofBlocks [(false, 64)]

/-- Two blocks of 16 bytes, both in use. -/
def twoUsed : Heap := Heap.ofBlocks [(false, 16), (false, 16)]

/-- Two free blocks of 16 bytes kept apart by a block in use. -/
def equalHoles : Heap := Heap.ofBlocks [(true, 16), (false, 8), (true, 16)]

/-- A free block of 64 bytes between two blocks in use. -/
def holeBetweenUsed : Heap := Heap.ofBlocks [(false, 16), (true, 64), (false, 16)]

/-- Two blocks in use, a free block and a block in use. -/
def usedUsedHoleUsed : Heap :=
  Heap.ofBlocks [(false, 16), (false, 16), (true, 16), (false, 16)]

/-- Three blocks of 16 bytes, all in use. -/
def threeUsed : Heap := Heap.ofBlocks [(false, 16), (false, 16), (false, 16)]

open Heap

/-! ## Lemmas on the memory map and on well-formed lists -/

@[simp] theorem blocks_store (h : Heap) (a x : Nat) (b : MemControlBlock) :
    (h.store a b).blocks x = if x = a then some b else h.blocks x := rfl
@[simp] theorem startOfHeap_store (h : Heap) (a : Nat) (b : MemControlBlock) :
    (h.store a b).startOfHeap = h.startOfHeap := rfl
@[simp] theorem memory_store (h : Heap) (a : Nat) (b : MemControlBlock) :
    (h.store a b).memory = h.memory := rfl

theorem index_lt_of_getElem? {l : List Nat} {i a : Nat} (hi : l[i]? = some a) : i < l.length := by
  by_contra hcon
  have : l[i]? = none := List.getElem?_eq_none (by omega)
  rw [this] at hi
  cases hi

theorem WellFormed.block_at {h : Heap} {l : List Nat} (hwf : WellFormed h l) {i a : Nat}
    (hi : l[i]? = some a) :
    ∃ b, h.blocks a = some b ∧ b.previous = (if i = 0 then none else l[i - 1]?) ∧
      b.next = l[i + 1]? ∧ b.size < 2 ^ 64 ∧
      a + sizeofMCB + b.size = (l[i + 1]?).getD h.memory := by
  have hw := hwf.2.2 i (index_lt_of_getElem? hi)
  unfold wfAt at hw
  rw [hi] at hw
  cases hb : h.blocks a with
  | none => simp only [hb] at hw; cases hw
  | some b =>
    simp only [hb, Bool.and_eq_true, beq_iff_eq, decide_eq_true_eq] at hw
    exact ⟨b, rfl, hw.1.1.1, hw.1.1.2, hw.1.2, hw.2⟩

theorem WellFormed.lt_succ {h : Heap} {l : List Nat} (hwf : WellFormed h l) {i a a' : Nat}
    (hi : l[i]? = some a) (hi' : l[i + 1]? = some a') : a < a' := by
  obtain ⟨b, -, -, -, -, hend⟩ := hwf.block_at hi
  rw [hi'] at hend
  simp only [Option.getD_some, sizeofMCB] at hend
  omega

theorem WellFormed.lt_of_lt {h : Heap} {l : List Nat} (hwf : WellFormed h l) :
    ∀ (k i : Nat) {a a' : Nat}, l[i]? = some a → l[i + k + 1]? = some a' → a < a' := by
  intro k
  induction k with
  | zero => intro i a a' hi hi'; exact hwf.lt_succ hi hi'
  | succ k ih =>
    intro i a a' hi hi'
    have hlt : i + k + 1 < l.length := by
      have := index_lt_of_getElem? hi'
      omega
    have hmid : l[i + k + 1]? = some l[i + k + 1] := List.getElem?_eq_getElem hlt
    have h1 := ih i hi hmid
    have h2 := hwf.lt_succ hmid hi'
    omega

theorem WellFormed.index_inj {h : Heap} {l : List Nat} (hwf : WellFormed h l) {i j a : Nat}
    (hi : l[i]? = some a) (hj : l[j]? = some a) : i = j := by
  rcases Nat.lt_trichotomy i j with hlt | heq | hgt
  · obtain ⟨k, rfl⟩ : ∃ k, j = i + k + 1 := ⟨j - i - 1, by omega⟩
    have := hwf.lt_of_lt k i hi hj
    omega
  · exact heq
  · obtain ⟨k, rfl⟩ : ∃ k, i = j + k + 1 := ⟨i - j - 1, by omega⟩
    have := hwf.lt_of_lt k j hj hi
    omega

theorem load_some {h : Heap} {a : Nat} {b : MemControlBlock} (hb : h.blocks a = some b) :
    h.load (some a) = .ok b := by
  simp [Heap.load, hb]

theorem skipUnavailable_available {h : Heap} {g : Nat} {bg : MemControlBlock}
    (hg : h.blocks g = some bg) (hav : bg.available = true) (fuel : Nat) :
    h.skipUnavailable (fuel + 1) (some g) = .ok (some g) := by
  simp [skipUnavailable, load_some hg, hav, bind, Except.bind, pure, Except.pure]

theorem skipUnavailable_first {h : Heap} {l : List Nat} (hwf : WellFormed h l) :
    ∀ (k j a fuel : Nat), l[j]? = some a →
      (∀ d, d < k → ∀ x bx, l[j + d]? = some x → h.blocks x = some bx → bx.available = false) →
      (∃ y bv, l[j + k]? = some y ∧ h.blocks y = some bv ∧ bv.available = true) →
      k < fuel → h.skipUnavailable fuel (some a) = .ok l[j + k]? := by
  intro k
  induction k with
  | zero =>
    intro j a fuel hj _ hav hfuel
    obtain ⟨y, bv, hy, hby, hyav⟩ := hav
    obtain ⟨f, rfl⟩ : ∃ f, fuel = f + 1 := ⟨fuel - 1, by omega⟩
    have e : l[j + 0]? = l[j]? := rfl
    rw [e, hj] at hy
    cases hy
    rw [e, hj]
    exact skipUnavailable_available hby hyav f
  | succ k ih =>
    intro j a fuel hj hun hav hfuel
    obtain ⟨y, bv, hy, hby, hyav⟩ := hav
    obtain ⟨f, rfl⟩ : ∃ f, fuel = f + 1 := ⟨fuel - 1, by omega⟩
    obtain ⟨ba, hba, -, hnext, -, -⟩ := hwf.block_at hj
    have hna : ba.available = false := hun 0 (by omega) a ba (by simpa using hj) hba
    have hlt : j + 1 < l.length := by
      have := index_lt_of_getElem? hy
      omega
    have hj1 : l[j + 1]? = some l[j + 1] := List.getElem?_eq_getElem hlt
    have hrec := ih (j + 1) l[j + 1] f hj1
      (fun d hd x bx hx hbx => hun (d + 1) (by omega) x bx (by rw [← hx]; congr 1; omega) hbx)
      ⟨y, bv, by rw [← hy]; congr 1; omega, hby, hyav⟩ (by omega)
    have hidx : j + 1 + k = j + (k + 1) := by omega
    rw [hidx] at hrec
    simp [skipUnavailable, load_some hba, hna, bind, Except.bind, hnext, hj1, hrec]

theorem worstFitLoop_best {h : Heap} {l : List Nat} (hwf : WellFormed h l) (r : Nat) :
    ∀ (m i fuel g : Nat), i + m = l.length → m < fuel → Best h l r i g →
      ∃ c, h.worstFitLoop r fuel l[i]? (some g) = .ok (some c) ∧ Best h l r l.length c := by
  intro m
  induction m with
  | zero =>
    intro i fuel g hi hfuel hbest
    obtain ⟨f, rfl⟩ : ∃ f, fuel = f + 1 := ⟨fuel - 1, by omega⟩
    have hnone : l[i]? = none := List.getElem?_eq_none (by omega)
    have hil : i = l.length := by omega
    obtain ⟨bg, hbg, hav, hmem, hmax⟩ := hbest
    refine ⟨g, ?_, bg, hbg, hav, hmem, by rw [← hil]; exact hmax⟩
    simp [worstFitLoop, hnone, load_some hbg, hav, bind, Except.bind, pure, Except.pure]
  | succ m ih =>
    intro i fuel g hi hfuel hbest
    obtain ⟨f, rfl⟩ : ∃ f, fuel = f + 1 := ⟨fuel - 1, by omega⟩
    have hlt : i < l.length := by omega
    have hcur : l[i]? = some l[i] := List.getElem?_eq_getElem hlt
    obtain ⟨ba, hba, -, hnext, -, -⟩ := hwf.block_at hcur
    obtain ⟨bg, hbg, hav, hmem, hmax⟩ := hbest
    by_cases hcond : ba.available = true ∧ r ≤ ba.size ∧ bg.size ≤ ba.size
    · have hstep : Best h l r (i + 1) l[i] := by
        refine ⟨ba, hba, hcond.1, List.getElem_mem hlt, ?_⟩
        intro j hj a b hja hb hbav hbr
        rcases Nat.lt_succ_iff_lt_or_eq.mp hj with hlt' | heq
        · exact le_trans (hmax j hlt' a b hja hb hbav hbr) hcond.2.2
        · subst heq
          rw [hcur] at hja
          cases hja
          rw [hba] at hb
          cases hb
          exact le_refl _
      obtain ⟨c, hc, hbc⟩ := ih (i + 1) f l[i] (by omega) (by omega) hstep
      refine ⟨c, ?_, hbc⟩
      rw [← hc]
      simp [worstFitLoop, hcur, skipUnavailable_available hbg hav, load_some hba, load_some hbg,
        hcond.1, hcond.2.1, hcond.2.2, bind, Except.bind, hnext]
    · have hstep : Best h l r (i + 1) g := by
        refine ⟨bg, hbg, hav, hmem, ?_⟩
        intro j hj a b hja hb hbav hbr
        rcases Nat.lt_succ_iff_lt_or_eq.mp hj with hlt' | heq
        · exact hmax j hlt' a b hja hb hbav hbr
        · subst heq
          rw [hcur] at hja
          cases hja
          rw [hba] at hb
          cases hb
          by_contra hgt
          exact hcond ⟨hbav, hbr, by omega⟩
      obtain ⟨c, hc, hbc⟩ := ih (i + 1) f g (by omega) (by omega) hstep
      refine ⟨c, ?_, hbc⟩
      rw [← hc]
      have hfalse : (ba.available && decide (r ≤ ba.size) && decide (bg.size ≤ ba.size)) = false := by
        rw [Bool.eq_false_iff]
        intro hcon
        simp only [Bool.and_eq_true, decide_eq_true_eq] at hcon
        exact hcond ⟨hcon.1.1, hcon.1.2, hcon.2⟩
      simp [worstFitLoop, hcur, skipUnavailable_available hbg hav, load_some hba, load_some hbg,
        hfalse, bind, Except.bind, hnext]

/-! ## The search `worstFitFinder` -/

theorem worstFitFinder_best {h : Heap} {l : List Nat} (hwf : WellFormed h l) (r fuel : Nat)
    (hlen : 2 ≤ l.length) (hfuel : l.length < fuel)
    (hav : ∃ a, a ∈ l ∧ ∃ b, h.blocks a = some b ∧ b.available = true) :
    ∃ c, h.worstFitFinder fuel r = .ok (some c) ∧ Best h l r l.length c := by
  classical
  have hex : ∃ k : Nat, ∃ y bv, l[k]? = some y ∧ h.blocks y = some bv ∧ bv.available = true := by
    obtain ⟨a, ha, b, hb, hbav⟩ := hav
    obtain ⟨k, hk⟩ := List.mem_iff_getElem?.mp ha
    exact ⟨k, a, b, hk, hb, hbav⟩
  have hfirst := Nat.find_spec hex
  have hmin : ∀ d, d < Nat.find hex → ∀ x bx, l[0 + d]? = some x → h.blocks x = some bx →
      bx.available = false := by
    intro d hd x bx hx hbx
    have hnot := Nat.find_min hex hd
    cases hxa : bx.available with
    | false => rfl
    | true => exact absurd ⟨x, bx, by simpa using hx, hbx, hxa⟩ hnot
  obtain ⟨y, bv, hy, hby, hyav⟩ := hfirst
  have h0 : l[0]? = some l[0] := List.getElem?_eq_getElem (by omega)
  have h1 : l[1]? = some l[1] := List.getElem?_eq_getElem (by omega)
  obtain ⟨b0, hb0, -, hnext0, -, -⟩ := hwf.block_at h0
  have hnext0' : b0.next = some l[1] := by rw [hnext0]; exact h1
  obtain ⟨f, rfl⟩ : ∃ f, fuel = f + 1 := ⟨fuel - 1, by omega⟩
  have hklt : Nat.find hex < l.length := index_lt_of_getElem? hy
  have hskip := skipUnavailable_first hwf (Nat.find hex) 0 l[0] (f + 1) h0 hmin
    ⟨y, bv, by simpa using hy, hby, hyav⟩ (by omega)
  have hskip' : h.skipUnavailable (f + 1) (some l[0]) = .ok (some y) := by
    rw [hskip, Nat.zero_add, hy]
  have hzero : b0.available = true → l[0] = y ∧ b0 = bv := by
    intro hb0av
    have hz : Nat.find hex = 0 := by
      by_contra hne
      have := hmin 0 (by omega) l[0] b0 h0 hb0
      rw [this] at hb0av
      cases hb0av
    rw [hz, h0] at hy
    cases hy
    rw [hb0] at hby
    cases hby
    exact ⟨rfl, rfl⟩
  have hstep : Best h l r 1 y := by
    refine ⟨bv, hby, hyav, List.mem_iff_getElem?.mpr ⟨_, hy⟩, ?_⟩
    intro j hj a b hja hb hbav _
    have hj0 : j = 0 := by omega
    subst hj0
    rw [h0] at hja
    cases hja
    rw [hb0] at hb
    cases hb
    rw [(hzero hbav).2]
  obtain ⟨c, hc, hbc⟩ := worstFitLoop_best hwf r (l.length - 1) 1 f y (by omega) (by omega) hstep
  refine ⟨c, ?_, hbc⟩
  rw [← hc]
  have hpick : (if (b0.available && decide (r ≤ b0.size) && decide (bv.size ≤ b0.size)) = true
      then some l[0] else some y) = some y := by
    split
    · next hcon =>
      simp only [Bool.and_eq_true, decide_eq_true_eq] at hcon
      rw [(hzero hcon.1.1).1]
    · rfl
  simp only [worstFitFinder, hwf.2.1, h0, load_some hb0, hnext0', bind, Except.bind, worstFitLoop,
    hskip', load_some hby, h1]
  simp only [ge_iff_le, hpick]
  simp

theorem WellFormed.next_mem {h : Heap} {l : List Nat} (hwf : WellFormed h l) {a : Nat}
    (ha : a ∈ l) : ∃ b, h.blocks a = some b ∧ ∀ x, b.next = some x → x ∈ l := by
  obtain ⟨i, hi⟩ := List.mem_iff_getElem?.mp ha
  obtain ⟨b, hb, -, hnext, -, -⟩ := hwf.block_at hi
  refine ⟨b, hb, ?_⟩
  intro x hx
  rw [hnext] at hx
  exact List.mem_iff_getElem?.mpr ⟨_, hx⟩

theorem skipUnavailable_mem {h : Heap} {l : List Nat} (hwf : WellFormed h l) :
    ∀ (fuel : Nat) (p : Ptr) (c : Nat), (∀ a, p = some a → a ∈ l) →
      h.skipUnavailable fuel p = .ok (some c) → c ∈ l := by
  intro fuel
  induction fuel with
  | zero => intro p c _ hres; simp [skipUnavailable] at hres
  | succ f ih =>
    intro p c hp hres
    cases p with
    | none => simp [skipUnavailable, Heap.load, bind, Except.bind] at hres
    | some a =>
      obtain ⟨b, hb, hnext⟩ := hwf.next_mem (hp a rfl)
      simp only [skipUnavailable, load_some hb, bind, Except.bind] at hres
      split at hres
      · exact ih b.next c hnext hres
      · simp only [pure, Except.pure, Except.ok.injEq, Option.some.injEq] at hres
        rw [← hres]
        exact hp a rfl

theorem worstFitLoop_mem {h : Heap} {l : List Nat} (hwf : WellFormed h l) (r : Nat) :
    ∀ (fuel : Nat) (curr biggest : Ptr) (c : Nat), (∀ a, curr = some a → a ∈ l) →
      (∀ a, biggest = some a → a ∈ l) →
      h.worstFitLoop r fuel curr biggest = .ok (some c) → c ∈ l := by
  intro fuel
  induction fuel with
  | zero => intro curr biggest c _ _ hres; simp [worstFitLoop] at hres
  | succ f ih =>
    intro curr biggest c hcurr hbig hres
    cases curr with
    | none =>
      cases biggest with
      | none => simp [worstFitLoop, Heap.load, bind, Except.bind] at hres
      | some g =>
        obtain ⟨bg, hbg, -⟩ := hwf.next_mem (hbig g rfl)
        simp only [worstFitLoop, bne_self_eq_false, Bool.false_eq_true, if_false, load_some hbg,
          bind, Except.bind] at hres
        split at hres
        · cases hres
        · simp only [pure, Except.pure, Except.ok.injEq, Option.some.injEq] at hres
          rw [← hres]
          exact hbig g rfl
    | some a =>
      obtain ⟨ba, hba, hnext⟩ := hwf.next_mem (hcurr a rfl)
      simp only [worstFitLoop, bind, Except.bind] at hres
      cases hsk : h.skipUnavailable (f + 1) biggest with
      | error e => simp [hsk] at hres
      | ok q =>
        cases q with
        | none => simp [hsk, pure, Except.pure] at hres
        | some g =>
          have hg : g ∈ l := skipUnavailable_mem hwf (f + 1) biggest g hbig hsk
          obtain ⟨bg, hbg, -⟩ := hwf.next_mem hg
          simp only [hsk, load_some hba, load_some hbg] at hres
          simp only [bne_iff_ne, ne_eq, reduceCtorEq, not_false_eq_true, if_true,
            beq_iff_eq, if_false] at hres
          refine ih ba.next _ c hnext ?_ hres
          intro x hx
          split at hx
          · cases hx; exact hcurr _ rfl
          · cases hx; exact hg

theorem worstFitFinder_mem {h : Heap} {l : List Nat} (hwf : WellFormed h l) {fuel r c : Nat}
    (hres : h.worstFitFinder fuel r = .ok (some c)) : c ∈ l := by
  have hstart : ∀ a, h.startOfHeap = some a → a ∈ l := by
    intro a ha
    rw [hwf.2.1] at ha
    exact List.mem_iff_getElem?.mpr ⟨_, ha⟩
  unfold worstFitFinder at hres
  cases hs : h.load h.startOfHeap with
  | error e => simp [hs, bind, Except.bind] at hres
  | ok s =>
    simp only [hs, bind, Except.bind] at hres
    split at hres
    · simp only [pure, Except.pure, Except.ok.injEq] at hres
      exact hstart c hres
    · exact worstFitLoop_mem hwf r fuel _ _ c hstart hstart hres

/-! ## The traversal `print` -/

theorem WellFormed.linked {h : Heap} {l : List Nat} (hwf : WellFormed h l) : Linked h l := by
  refine ⟨hwf.2.1, ?_⟩
  intro j a hj
  obtain ⟨b, hb, -, hnext, -, -⟩ := hwf.block_at hj
  exact ⟨b, hb, hnext⟩

theorem printFrom_linked {h : Heap} {l : List Nat} (hl : Linked h l) :
    ∀ (m j fuel : Nat), j + m = l.length → m < fuel →
      h.printFrom fuel l[j]? = .ok ((l.drop j).map (obs h)) := by
  intro m
  induction m with
  | zero =>
    intro j fuel hj hfuel
    obtain ⟨f, rfl⟩ : ∃ f, fuel = f + 1 := ⟨fuel - 1, by omega⟩
    have hnone : l[j]? = none := List.getElem?_eq_none (by omega)
    have hdrop : l.drop j = [] := List.drop_eq_nil_of_le (by omega)
    simp [printFrom, hnone, hdrop, pure, Except.pure]
  | succ m ih =>
    intro j fuel hj hfuel
    obtain ⟨f, rfl⟩ : ∃ f, fuel = f + 1 := ⟨fuel - 1, by omega⟩
    have hlt : j < l.length := by omega
    have hcur : l[j]? = some l[j] := List.getElem?_eq_getElem hlt
    obtain ⟨b, hb, hnext⟩ := hl.2 j l[j] hcur
    have hrec := ih (j + 1) f (by omega) (by omega)
    have hdrop : l.drop j = l[j] :: l.drop (j + 1) := List.drop_eq_getElem_cons hlt
    have hobs : obs h l[j] = (b.available, b.size) := by simp [obs, hb]
    rw [hdrop, List.map_cons, hobs]
    simp [printFrom, hcur, load_some hb, hnext, hrec, bind, Except.bind, pure, Except.pure]

theorem print_linked {h : Heap} {l : List Nat} (hl : Linked h l) {fuel : Nat}
    (hfuel : l.length < fuel) : h.print fuel = .ok (l.map (obs h)) := by
  have := printFrom_linked hl l.length 0 fuel (by omega) hfuel
  rw [List.drop_zero] at this
  rw [← this, Heap.print, hl.1]

theorem noAdjacentFree_iff (out : List (Bool × Nat)) :
    noAdjacentFree out = true ↔
      ∀ j x y, out[j]? = some x → out[j + 1]? = some y → ¬ (x.1 = true ∧ y.1 = true) := by
  induction out with
  | nil => simp [noAdjacentFree]
  | cons x rest ih =>
    cases rest with
    | nil =>
      simp only [noAdjacentFree, true_iff]
      intro j x' y _ hy
      simp at hy
    | cons y rest =>
      simp only [noAdjacentFree, Bool.and_eq_true, Bool.not_eq_true', Bool.and_eq_false_imp, ih]
      constructor
      · rintro ⟨hxy, hrest⟩ j x' y' hx' hy'
        cases j with
        | zero =>
          simp only [List.getElem?_cons_zero, Option.some.injEq, zero_add,
            List.getElem?_cons_succ] at hx' hy'
          subst hx' hy'
          intro hcon
          have := hxy hcon.1
          rw [hcon.2] at this
          cases this
        | succ j =>
          simp only [List.getElem?_cons_succ] at hx' hy'
          exact hrest j x' y' hx' (by simpa using hy')
      · intro hall
        refine ⟨?_, ?_⟩
        · intro hx
          cases hy : y.1 with
          | false => rfl
          | true => exact absurd ⟨hx, hy⟩ (hall 0 x y (by simp) (by simp))
        · intro j x' y' hx' hy'
          exact hall (j + 1) x' y' (by simpa using hx') (by simpa using hy')

theorem separated_of_print {h : Heap} {l : List Nat} (hl : Linked h l) {fuel : Nat}
    (hfuel : l.length < fuel) {out : List (Bool × Nat)} (hout : h.print fuel = .ok out)
    (hna : noAdjacentFree out = true) : Separated h l := by
  rw [print_linked hl hfuel] at hout
  cases hout
  intro j x y hx hy
  exact (noAdjacentFree_iff _).mp hna j (obs h x) (obs h y)
    (by rw [List.getElem?_map, hx]; rfl) (by rw [List.getElem?_map, hy]; rfl)

theorem print_of_separated {h : Heap} {l : List Nat} (hl : Linked h l) {fuel : Nat}
    (hfuel : l.length < fuel) (hsep : Separated h l) :
    ∃ out, h.print fuel = .ok out ∧ noAdjacentFree out = true := by
  refine ⟨_, print_linked hl hfuel, (noAdjacentFree_iff _).mpr ?_⟩
  intro j x y hx hy
  rw [List.getElem?_map] at hx hy
  cases hxa : l[j]? with
  | none => rw [hxa] at hx; cases hx
  | some a =>
    cases hya : l[j + 1]? with
    | none => rw [hya] at hy; cases hy
    | some a' =>
      rw [hxa] at hx
      rw [hya] at hy
      cases hx
      cases hy
      exact hsep j a a' hxa hya

theorem getElem?_cut (l : List Nat) (i k j : Nat) (hi : i ≤ l.length) :
    (l.take i ++ l.drop (i + k))[j]? = if j < i then l[j]? else l[j + k]? := by
  have hlen : (l.take i).length = i := by simp [hi]
  by_cases hj : j < i
  · rw [List.getElem?_append_left (by omega), List.getElem?_take, if_pos hj, if_pos hj]
  · rw [List.getElem?_append_right (by omega), List.getElem?_drop, hlen, if_neg hj]
    congr 1
    omega

theorem result_take {h h' : Heap} {l : List Nat} (hwf : WellFormed h l) (hsep : Separated h l)
    {i b : Nat} (hi : l[i]? = some b) (hstart : h'.startOfHeap = h.startOfHeap)
    (hframe : ∀ x, x ≠ b → h'.blocks x = h.blocks x)
    {B' : MemControlBlock} (hb' : h'.blocks b = some B') (hnext : B'.next = none)
    (hprev : ∀ p, 0 < i → l[i - 1]? = some p → (obs h p).1 = false) :
    Linked h' (l.take (i + 1)) ∧ Separated h' (l.take (i + 1)) := by
  have hne : ∀ j a, l[j]? = some a → j ≠ i → a ≠ b := by
    intro j a hj hji hab
    subst hab
    exact hji (hwf.index_inj hj hi)
  refine ⟨⟨?_, ?_⟩, ?_⟩
  · rw [hstart, hwf.2.1, List.getElem?_take, if_pos (by omega)]
  · intro j a hj
    rw [List.getElem?_take] at hj
    split at hj
    · next hlt =>
      by_cases hji : j = i
      · subst hji
        rw [hi] at hj
        cases hj
        refine ⟨B', hb', ?_⟩
        rw [hnext, List.getElem?_take, if_neg (by omega)]
      · obtain ⟨ba, hba, hban⟩ := hwf.linked.2 j a hj
        refine ⟨ba, by rw [hframe a (hne j a hj hji)]; exact hba, ?_⟩
        rw [hban, List.getElem?_take, if_pos (by omega)]
    · cases hj
  · intro j x y hx hy
    rw [List.getElem?_take] at hx hy
    split at hy
    · next hlt =>
      rw [if_pos (by omega)] at hx
      have hxb : x ≠ b := hne j x hx (by omega)
      have hox : obs h' x = obs h x := by simp only [obs, hframe x hxb]
      by_cases hji : j + 1 = i
      · have hp := hprev x (by omega) (by rw [← hx]; congr 1; omega)
        rw [hox, hp]
        simp
      · have hyb : y ≠ b := hne (j + 1) y hy hji
        have hoy : obs h' y = obs h y := by simp only [obs, hframe y hyb]
        rw [hox, hoy]
        exact hsep j x y hx hy
    · cases hy

theorem result_cut {h h' : Heap} {l : List Nat} (hwf : WellFormed h l) (hsep : Separated h l)
    {i k p : Nat} (hipos : 0 < i) (hik : i + k ≤ l.length) (hp : l[i - 1]? = some p)
    (hstart : h'.startOfHeap = h.startOfHeap)
    (hframe : ∀ j a, l[j]? = some a → j + 1 < i ∨ i + k ≤ j →
      ∃ b0 b1, h.blocks a = some b0 ∧ h'.blocks a = some b1 ∧ b1.next = b0.next ∧
        b1.available = b0.available)
    (hp' : ∃ P P', h.blocks p = some P ∧ h'.blocks p = some P' ∧ P'.available = P.available ∧
      P'.next = l[i + k]?)
    (hbridge : ∀ y, l[i + k]? = some y → (obs h y).1 = false) :
    Linked h' (l.take i ++ l.drop (i + k)) ∧ Separated h' (l.take i ++ l.drop (i + k)) := by
  have hil : i ≤ l.length := by omega
  have hobs : ∀ j a, l[j]? = some a → j + 1 < i ∨ i + k ≤ j → (obs h' a).1 = (obs h a).1 := by
    intro j a hj hcase
    obtain ⟨b0, b1, hb0, hb1, -, hav⟩ := hframe j a hj hcase
    simp only [obs, hb0, hb1, hav]
  have hobsp : (obs h' p).1 = (obs h p).1 := by
    obtain ⟨P, P', hP, hP', hav, -⟩ := hp'
    simp only [obs, hP, hP', hav]
  refine ⟨⟨?_, ?_⟩, ?_⟩
  · rw [hstart, hwf.2.1, getElem?_cut l i k 0 hil, if_pos hipos]
  · intro j a hj
    rw [getElem?_cut l i k j hil] at hj
    rw [getElem?_cut l i k (j + 1) hil]
    split at hj
    · next hlt =>
      by_cases hji : j + 1 = i
      · have hap : a = p := by
          have : l[i - 1]? = some a := by rw [← hj]; congr 1; omega
          rw [hp] at this
          cases this
          rfl
        subst hap
        obtain ⟨P, P', -, hP', -, hPn⟩ := hp'
        refine ⟨P', hP', ?_⟩
        rw [hPn, if_neg (by omega)]
        congr 1
        omega
      · obtain ⟨b0, b1, hb0, hb1, hn, -⟩ := hframe j a hj (Or.inl (by omega))
        obtain ⟨ba, hba, hban⟩ := hwf.linked.2 j a hj
        rw [hb0] at hba
        cases hba
        refine ⟨b1, hb1, ?_⟩
        rw [hn, hban, if_pos (by omega)]
    · next hge =>
      obtain ⟨b0, b1, hb0, hb1, hn, -⟩ := hframe (j + k) a hj (Or.inr (by omega))
      obtain ⟨ba, hba, hban⟩ := hwf.linked.2 (j + k) a hj
      rw [hb0] at hba
      cases hba
      refine ⟨b1, hb1, ?_⟩
      rw [hn, hban, if_neg (by omega)]
      congr 1
      omega
  · intro j x y hx hy
    rw [getElem?_cut l i k j hil] at hx
    rw [getElem?_cut l i k (j + 1) hil] at hy
    split at hy
    · next hlt =>
      rw [if_pos (by omega)] at hx
      have hoy : (obs h' y).1 = (obs h y).1 := by
        by_cases hji : j + 2 = i
        · have hyp : y = p := by
            have : l[i - 1]? = some y := by rw [← hy]; congr 1; omega
            rw [hp] at this
            cases this
            rfl
          rw [hyp]
          exact hobsp
        · exact hobs (j + 1) y hy (Or.inl (by omega))
      rw [hobs j x hx (Or.inl (by omega)), hoy]
      exact hsep j x y hx hy
    · next hge =>
      by_cases hji : j + 1 = i
      · have hy' : l[i + k]? = some y := by rw [← hy]; congr 1; omega
        rw [hobs (i + k) y hy' (Or.inr (by omega)), hbridge y hy']
        simp
      · rw [if_neg (by omega)] at hx
        have hy' : l[j + k + 1]? = some y := by rw [← hy]; congr 1; omega
        rw [hobs (j + k) x hx (Or.inr (by omega)), hobs (j + k + 1) y hy' (Or.inr (by omega))]
        exact hsep (j + k) x y hx hy'

/-! ## Runs of `deallocateMemory` -/

theorem dealloc_plain {h : Heap} {b : Nat} {B : MemControlBlock} (hB : h.blocks b = some B)
    (hprev : B.previous = none ∨
      ∃ p P, B.previous = some p ∧ h.blocks p = some P ∧ P.available = false ∧ p ≠ b)
    (hnext : B.next = none ∨
      ∃ n N, B.next = some n ∧ h.blocks n = some N ∧ N.available = false ∧ n ≠ b) :
    ∃ h', h.deallocateMemory (b + sizeofMCB) = .ok h' ∧ h'.startOfHeap = h.startOfHeap ∧
      (∀ x, x ≠ b → h'.blocks x = h.blocks x) ∧
      h'.blocks b = some ⟨true, B.size, none, none⟩ := by
  have hlt : ¬ (b + sizeofMCB < sizeofMCB) := by omega
  rcases hprev with hBp | ⟨p, P, hBp, hP, hPa, hpb⟩ <;>
  rcases hnext with hBn | ⟨n, N, hBn, hN, hNa, hnb⟩
  all_goals
    simp only [deallocateMemory, hlt, if_false, Nat.add_sub_cancel, bind, Except.bind,
      Heap.load, Heap.modify, Heap.destroy, blocks_store, if_true, pure, Except.pure,
      bne_iff_ne, ne_eq, reduceCtorEq, not_false_eq_true, not_true_eq_false,
      Bool.false_eq_true, *]
    refine ⟨_, rfl, ?_, ?_, ?_⟩
    · simp
    · intro x hx
      simp [hx]
    · simp

theorem dealloc_merge_previous {h : Heap} {b p : Nat} {B P : MemControlBlock}
    (hB : h.blocks b = some B) (hBp : B.previous = some p) (hP : h.blocks p = some P)
    (hPa : P.available = true) (hpb : p ≠ b)
    (hnext : B.next = none ∨
      ∃ n N, B.next = some n ∧ h.blocks n = some N ∧ N.available = false ∧ n ≠ b ∧ n ≠ p) :
    ∃ h', h.deallocateMemory (b + sizeofMCB) = .ok h' ∧ h'.startOfHeap = h.startOfHeap ∧
      (∀ x b0, x ≠ b → x ≠ p → h.blocks x = some b0 →
        ∃ b1, h'.blocks x = some b1 ∧ b1.next = b0.next ∧ b1.available = b0.available) ∧
      ∃ P', h'.blocks p = some P' ∧ P'.available = P.available ∧ P'.next = B.next := by
  have hlt : ¬ (b + sizeofMCB < sizeofMCB) := by omega
  have hbp : b ≠ p := hpb.symm
  rcases hnext with hBn | ⟨n, N, hBn, hN, hNa, hnb, hnp⟩
  · simp only [deallocateMemory, hlt, if_false, Nat.add_sub_cancel, bind, Except.bind,
      Heap.load, Heap.modify, Heap.destroy, blocks_store, if_true, pure, Except.pure,
      bne_iff_ne, ne_eq, reduceCtorEq, not_false_eq_true, not_true_eq_false,
      Bool.false_eq_true, *]
    refine ⟨_, rfl, ?_, ?_, ?_⟩
    · simp
    · intro x b0 hx hxp hb0
      simp [hx, hxp, hb0]
    · simp [hpb, hPa]
  · have hbn : b ≠ n := hnb.symm
    have hpn : p ≠ n := hnp.symm
    simp only [deallocateMemory, hlt, if_false, Nat.add_sub_cancel, bind, Except.bind,
      Heap.load, Heap.modify, Heap.destroy, blocks_store, if_true, pure, Except.pure,
      bne_iff_ne, ne_eq, reduceCtorEq, not_false_eq_true, not_true_eq_false,
      Bool.false_eq_true, *]
    refine ⟨_, rfl, ?_, ?_, ?_⟩
    · simp
    · intro x b0 hx hxp hb0
      by_cases hxn : x = n
      · subst hxn
        rw [hN] at hb0
        cases hb0
        simp [hx, hxp, hNa]
      · simp [hx, hxp, hxn, hb0]
    · simp [hpb, hpn, hPa]

theorem dealloc_merge_next {h : Heap} {b p n s : Nat} {B P N S : MemControlBlock}
    (hB : h.blocks b = some B) (hBp : B.previous = some p) (hP : h.blocks p = some P)
    (hBn : B.next = some n) (hN : h.blocks n = some N) (hNa : N.available = true)
    (hNn : N.next = some s) (hS : h.blocks s = some S)
    (hpb : p ≠ b) (hnb : n ≠ b) (hsb : s ≠ b) (hnp : n ≠ p) (hsp : s ≠ p) (hsn : s ≠ n) :
    ∃ h', h.deallocateMemory (b + sizeofMCB) = .ok h' ∧ h'.startOfHeap = h.startOfHeap ∧
      (∀ x b0, x ≠ b → x ≠ p → x ≠ n → h.blocks x = some b0 →
        ∃ b1, h'.blocks x = some b1 ∧ b1.next = b0.next ∧ b1.available = b0.available) ∧
      ∃ P', h'.blocks p = some P' ∧ P'.available = P.available ∧ P'.next = some s := by
  have hlt : ¬ (b + sizeofMCB < sizeofMCB) := by omega
  have hbp : b ≠ p := hpb.symm
  have hbn : b ≠ n := hnb.symm
  have hbs : b ≠ s := hsb.symm
  have hpn : p ≠ n := hnp.symm
  have hps : p ≠ s := hsp.symm
  have hns : n ≠ s := hsn.symm
  cases hPa : P.available
  all_goals
    simp only [deallocateMemory, hlt, if_false, Nat.add_sub_cancel, bind, Except.bind,
      Heap.load, Heap.modify, Heap.destroy, blocks_store, if_true, pure, Except.pure,
      bne_iff_ne, ne_eq, reduceCtorEq, not_false_eq_true, not_true_eq_false,
      Bool.false_eq_true, *]
    refine ⟨_, rfl, ?_, ?_, ?_⟩
    · simp
    · intro x b0 hx hxp hxn hb0
      by_cases hxs : x = s
      · subst hxs
        rw [hS] at hb0
        cases hb0
        simp [hx, hxp, hxn]
      · simp [hx, hxp, hxn, hxs, hb0]
    · simp [hpb, hpn, hps, hPa]

theorem dealloc_fault_no_previous {h : Heap} {b n : Nat} {B N : MemControlBlock}
    (hB : h.blocks b = some B) (hBp : B.previous = none)
    (hBn : B.next = some n) (hN : h.blocks n = some N) (hNa : N.available = true)
    (hnb : n ≠ b) :
    h.deallocateMemory (b + sizeofMCB) = .error .nullDeref := by
  have hlt : ¬ (b + sizeofMCB < sizeofMCB) := by omega
  have hbn : b ≠ n := hnb.symm
  simp only [deallocateMemory, hlt, if_false, Nat.add_sub_cancel, bind, Except.bind,
    Heap.load, Heap.modify, Heap.destroy, blocks_store, if_true, pure, Except.pure,
    bne_iff_ne, ne_eq, reduceCtorEq, not_false_eq_true, not_true_eq_false,
    Bool.false_eq_true, *]

theorem dealloc_fault_no_successor {h : Heap} {b p n : Nat} {B P N : MemControlBlock}
    (hB : h.blocks b = some B) (hBp : B.previous = some p) (hP : h.blocks p = some P)
    (hBn : B.next = some n) (hN : h.blocks n = some N) (hNa : N.available = true)
    (hNn : N.next = none) (hpb : p ≠ b) (hnb : n ≠ b) (hnp : n ≠ p) :
    h.deallocateMemory (b + sizeofMCB) = .error .nullDeref := by
  have hlt : ¬ (b + sizeofMCB < sizeofMCB) := by omega
  have hbp : b ≠ p := hpb.symm
  have hbn : b ≠ n := hnb.symm
  have hpn : p ≠ n := hnp.symm
  cases hPa : P.available
  all_goals
    simp only [deallocateMemory, hlt, if_false, Nat.add_sub_cancel, bind, Except.bind,
      Heap.load, Heap.modify, Heap.destroy, blocks_store, if_true, pure, Except.pure,
      bne_iff_ne, ne_eq, reduceCtorEq, not_false_eq_true, not_true_eq_false,
      Bool.false_eq_true, *]

theorem WellFormed.ne_of_index_ne {h : Heap} {l : List Nat} (hwf : WellFormed h l)
    {i j a a' : Nat} (hi : l[i]? = some a) (hj : l[j]? = some a') (hne : i ≠ j) : a ≠ a' := by
  intro hcon
  subst hcon
  exact hne (hwf.index_inj hi hj)

theorem obs_of_block {h : Heap} {a : Nat} {b : MemControlBlock} (hb : h.blocks a = some b) :
    (obs h a).1 = b.available := by
  simp only [obs, hb]

theorem dealloc_outcome {h : Heap} {l : List Nat} {i b fuel : Nat} {B : MemControlBlock}
    (hwf : WellFormed h l) (hfuel : l.length < fuel) (hsep : Separated h l)
    (hi : l[i]? = some b) (hB : h.blocks b = some B) :
    (h.deallocateMemory (b + sizeofMCB) = .error .nullDeref ∧
      ∃ n N, l[i + 1]? = some n ∧ h.blocks n = some N ∧ N.available = true) ∨
    ∃ h', h.deallocateMemory (b + sizeofMCB) = .ok h' ∧
      ∃ out', h'.print fuel = .ok out' ∧ noAdjacentFree out' = true := by
  have hilt : i < l.length := index_lt_of_getElem? hi
  obtain ⟨B0, hB0, hBp, hBn, -, -⟩ := hwf.block_at hi
  rw [hB] at hB0
  cases hB0
  -- the two ways a completed call shapes the list
  have take_case : ∀ h' : Heap, h'.startOfHeap = h.startOfHeap →
      (∀ x, x ≠ b → h'.blocks x = h.blocks x) →
      h'.blocks b = some ⟨true, B.size, none, none⟩ →
      (∀ p, 0 < i → l[i - 1]? = some p → (obs h p).1 = false) →
      ∃ out', h'.print fuel = .ok out' ∧ noAdjacentFree out' = true := by
    intro h' hstart hframe hb' hprev
    obtain ⟨hl', hs'⟩ := result_take hwf hsep hi hstart hframe hb' rfl hprev
    exact print_of_separated hl' (by rw [List.length_take]; omega) hs'
  have cut_case : ∀ (k p : Nat) (h' : Heap) (P : MemControlBlock), 0 < i → 0 < k →
      i + k ≤ l.length → l[i - 1]? = some p → h.blocks p = some P →
      h'.startOfHeap = h.startOfHeap →
      (∀ j a, l[j]? = some a → j + 1 < i ∨ i + k ≤ j →
        ∀ b0, h.blocks a = some b0 →
        ∃ b1, h'.blocks a = some b1 ∧ b1.next = b0.next ∧ b1.available = b0.available) →
      (∃ P', h'.blocks p = some P' ∧ P'.available = P.available ∧ P'.next = l[i + k]?) →
      (∀ y, l[i + k]? = some y → (obs h y).1 = false) →
      ∃ out', h'.print fuel = .ok out' ∧ noAdjacentFree out' = true := by
    intro k p h' P hipos hk hik hp hP hstart hframe hp' hbridge
    obtain ⟨P', hP', hPa', hPn'⟩ := hp'
    obtain ⟨hl', hs'⟩ := result_cut hwf hsep hipos hik hp hstart
      (fun j a hj hcase => by
        obtain ⟨b0, hb0, -⟩ := hwf.block_at hj
        obtain ⟨b1, hb1, hn, ha⟩ := hframe j a hj hcase b0 hb0
        exact ⟨b0, b1, hb0, hb1, hn, ha⟩)
      ⟨P, P', hP, hP', hPa', hPn'⟩ hbridge
    refine print_of_separated hl' ?_ hs'
    rw [List.length_append, List.length_take, List.length_drop]
    omega
  -- the previous block, when there is one
  have hprevious : 0 < i → ∃ p P, l[i - 1]? = some p ∧ h.blocks p = some P ∧
      B.previous = some p ∧ p ≠ b := by
    intro hipos
    have hp : l[i - 1]? = some l[i - 1] := List.getElem?_eq_getElem (by omega)
    obtain ⟨P, hP, -⟩ := hwf.block_at hp
    refine ⟨l[i - 1], P, hp, hP, ?_, hwf.ne_of_index_ne hp hi (by omega)⟩
    rw [hBp, if_neg (by omega), hp]
  cases hnx : l[i + 1]? with
  | none =>
    rw [hnx] at hBn
    right
    by_cases hipos : 0 < i
    · obtain ⟨p, P, hp, hP, hBp', hpb⟩ := hprevious hipos
      cases hPa : P.available with
      | false =>
        obtain ⟨h', hd, hstart, hframe, hb'⟩ :=
          dealloc_plain hB (Or.inr ⟨p, P, hBp', hP, hPa, hpb⟩) (Or.inl hBn)
        refine ⟨h', hd, take_case h' hstart hframe hb' ?_⟩
        intro p' _ hp'
        rw [hp] at hp'
        cases hp'
        rw [obs_of_block hP, hPa]
      | true =>
        obtain ⟨h', hd, hstart, hframe, hp'⟩ :=
          dealloc_merge_previous hB hBp' hP hPa hpb (Or.inl hBn)
        refine ⟨h', hd, cut_case 1 p h' P hipos (by omega) (by omega) hp hP hstart ?_ ?_ ?_⟩
        · intro j a hj hcase b0 hb0
          exact hframe a b0 (hwf.ne_of_index_ne hj hi (by omega))
            (hwf.ne_of_index_ne hj hp (by omega)) hb0
        · rw [hnx, ← hBn]
          exact hp'
        · intro y hy
          rw [hnx] at hy
          cases hy
    · have hi0 : i = 0 := by omega
      rw [if_pos hi0] at hBp
      obtain ⟨h', hd, hstart, hframe, hb'⟩ := dealloc_plain hB (Or.inl hBp) (Or.inl hBn)
      exact ⟨h', hd, take_case h' hstart hframe hb' (fun p hp _ => absurd hp hipos)⟩
  | some n =>
    rw [hnx] at hBn
    obtain ⟨N, hN, -, hNn, -, -⟩ := hwf.block_at hnx
    have hnb : n ≠ b := hwf.ne_of_index_ne hnx hi (by omega)
    cases hNa : N.available with
    | false =>
      right
      by_cases hipos : 0 < i
      · obtain ⟨p, P, hp, hP, hBp', hpb⟩ := hprevious hipos
        have hnp : n ≠ p := hwf.ne_of_index_ne hnx hp (by omega)
        cases hPa : P.available with
        | false =>
          obtain ⟨h', hd, hstart, hframe, hb'⟩ :=
            dealloc_plain hB (Or.inr ⟨p, P, hBp', hP, hPa, hpb⟩)
              (Or.inr ⟨n, N, hBn, hN, hNa, hnb⟩)
          refine ⟨h', hd, take_case h' hstart hframe hb' ?_⟩
          intro p' _ hp'
          rw [hp] at hp'
          cases hp'
          rw [obs_of_block hP, hPa]
        | true =>
          obtain ⟨h', hd, hstart, hframe, hp'⟩ :=
            dealloc_merge_previous hB hBp' hP hPa hpb (Or.inr ⟨n, N, hBn, hN, hNa, hnb, hnp⟩)
          refine ⟨h', hd, cut_case 1 p h' P hipos (by omega) (by omega) hp hP hstart ?_ ?_ ?_⟩
          · intro j a hj hcase b0 hb0
            exact hframe a b0 (hwf.ne_of_index_ne hj hi (by omega))
              (hwf.ne_of_index_ne hj hp (by omega)) hb0
          · rw [hnx, ← hBn]
            exact hp'
          · intro y hy
            rw [hnx] at hy
            cases hy
            rw [obs_of_block hN, hNa]
      · have hi0 : i = 0 := by omega
        rw [if_pos hi0] at hBp
        obtain ⟨h', hd, hstart, hframe, hb'⟩ :=
          dealloc_plain hB (Or.inl hBp) (Or.inr ⟨n, N, hBn, hN, hNa, hnb⟩)
        exact ⟨h', hd, take_case h' hstart hframe hb' (fun p hp _ => absurd hp hipos)⟩
    | true =>
      by_cases hipos : 0 < i
      · obtain ⟨p, P, hp, hP, hBp', hpb⟩ := hprevious hipos
        have hnp : n ≠ p := hwf.ne_of_index_ne hnx hp (by omega)
        cases hsx : l[i + 1 + 1]? with
        | none =>
          rw [hsx] at hNn
          exact Or.inl ⟨dealloc_fault_no_successor hB hBp' hP hBn hN hNa hNn hpb hnb hnp,
            n, N, rfl, hN, hNa⟩
        | some s =>
          rw [hsx] at hNn
          right
          obtain ⟨S, hS, -⟩ := hwf.block_at hsx
          have hsb : s ≠ b := hwf.ne_of_index_ne hsx hi (by omega)
          have hsp : s ≠ p := hwf.ne_of_index_ne hsx hp (by omega)
          have hsn : s ≠ n := hwf.ne_of_index_ne hsx hnx (by omega)
          obtain ⟨h', hd, hstart, hframe, hp'⟩ :=
            dealloc_merge_next hB hBp' hP hBn hN hNa hNn hS hpb hnb hsb hnp hsp hsn
          have hslt : i + 1 + 1 < l.length := index_lt_of_getElem? hsx
          refine ⟨h', hd, cut_case 2 p h' P hipos (by omega) (by omega) hp hP hstart ?_ ?_ ?_⟩
          · intro j a hj hcase b0 hb0
            exact hframe a b0 (hwf.ne_of_index_ne hj hi (by omega))
              (hwf.ne_of_index_ne hj hp (by omega)) (hwf.ne_of_index_ne hj hnx (by omega)) hb0
          · rw [show i + 2 = i + 1 + 1 from rfl, hsx]
            exact hp'
          · intro y hy
            rw [show i + 2 = i + 1 + 1 from rfl, hsx] at hy
            cases hy
            have hns := hsep (i + 1) n s hnx hsx
            rw [obs_of_block hN, obs_of_block hS, hNa] at hns
            rw [obs_of_block hS]
            cases hSa : S.available with
            | false => rfl
            | true => exact absurd ⟨rfl, hSa⟩ hns
      · have hi0 : i = 0 := by omega
        rw [if_pos hi0] at hBp
        exact Or.inl ⟨dealloc_fault_no_previous hB hBp hBn hN hNa hnb, n, N, rfl, hN, hNa⟩

/-! ## Integer conversions and the split of a block -/

theorem toInt_of_lt {r : Nat} (hr : r < 2 ^ 31) : toInt r = (r : Int) := by
  unfold toInt
  have hmod : r % 2 ^ 32 = r := by omega
  rw [hmod, if_pos hr]

theorem toSizeT_natCast {r : Nat} (hr : r < 2 ^ 64) : toSizeT (r : Int) = r := by
  unfold toSizeT
  omega

theorem subSize_of_le {a b : Nat} (hba : b ≤ a) (ha : a < 2 ^ 64) : subSize a b = a - b := by
  unfold subSize
  omega

theorem allocate_split_of_fit (h : Heap) (l : List Nat) (fuel n c P : Nat) (pv nx : Ptr)
    (hwf : WellFormed h l)
    (hfind : h.worstFitFinder fuel (rounder n) = .ok (some c))
    (hc : h.blocks c = some ⟨true, P, pv, nx⟩)
    (hfit : sizeofMCB ≤ P - rounder n)
    (hr : rounder n < 2 ^ 31) (hspare : P - rounder n < 2 ^ 31) :
    ∃ h', h.allocateMemoryWorstFit fuel n = .ok (h', some (c + sizeofMCB)) ∧
      h'.blocks c = some ⟨false, rounder n, pv, some (c + sizeofMCB + rounder n)⟩ ∧
      h'.blocks (c + sizeofMCB + rounder n) =
        some ⟨true, P - rounder n - sizeofMCB, some c, nx⟩ ∧
      (∀ x, nx = some x → ∃ b, h.blocks x = some b ∧
        h'.blocks x = some { b with previous := some (c + sizeofMCB + rounder n) }) ∧
      (∀ a, a ≠ c → a ≠ c + sizeofMCB + rounder n → nx ≠ some a → h'.blocks a = h.blocks a) ∧
      h'.startOfHeap = h.startOfHeap ∧ h'.memory = h.memory := by
  have hmem : c ∈ l := worstFitFinder_mem hwf hfind
  obtain ⟨i, hi⟩ := List.mem_iff_getElem?.mp hmem
  obtain ⟨C, hC, -, hCn, hCs, hCe⟩ := hwf.block_at hi
  rw [hc] at hC
  cases hC
  simp only at hCn hCs hCe
  simp only [sizeofMCB] at hfit hCe ⊢
  have hs : toSizeT ((rounder n : Nat) : Int) = rounder n := toSizeT_natCast (by omega)
  have hi0 : toInt (rounder n) = (rounder n : Int) := toInt_of_lt hr
  have hsub : subSize P (rounder n) = P - rounder n := subSize_of_le (by omega) hCs
  have hsp : toInt (P - rounder n) = ((P - rounder n : Nat) : Int) := toInt_of_lt hspare
  have hsp2 : toSizeT ((P - rounder n : Nat) : Int) = P - rounder n :=
    toSizeT_natCast (by omega)
  have hnew : subSize (P - rounder n) 32 = P - rounder n - 32 := subSize_of_le hfit (by omega)
  have hnewi : toInt (P - rounder n - 32) = ((P - rounder n - 32 : Nat) : Int) :=
    toInt_of_lt (by omega)
  have hnews : toSizeT ((P - rounder n - 32 : Nat) : Int) = P - rounder n - 32 :=
    toSizeT_natCast (by omega)
  have h32 : toSizeT ((32 : Nat) : Int) = 32 := toSizeT_natCast (by omega)
  have hfin : subSize (subSize P (P - rounder n - 32)) 32 = rounder n := by
    rw [subSize_of_le (by omega) hCs, subSize_of_le (by omega) (by omega)]
    omega
  have hne : (rounder n == P) = false := by
    rw [beq_eq_false_iff_ne]
    omega
  have hge : ((P - rounder n : Nat) : Int) ≥ ((32 : Nat) : Int) := by omega
  have hnneg : ¬ ((rounder n : Int) < 0) := by omega
  have hca : c + 32 + rounder n ≠ c := by omega
  have hca' : c ≠ c + 32 + rounder n := by omega
  cases hnx : nx with
  | none =>
    subst hnx
    simp only [allocateMemoryWorstFit, hs, hfind, bind, Except.bind, Heap.load, Heap.modify, hc,
      hne, Bool.and_false, Bool.false_eq_true, if_false, blocks_store, if_true, hsub, hsp, hge,
      hi0, hnneg, Int.toNat_ofNat, hsp2, hnew, hnewi, MemControlBlock.construct, hnews, sizeofMCB,
      hca, hca', bne_self_eq_false, pure, Except.pure, h32, hfin]
    refine ⟨_, rfl, ?_, ?_, ?_, ?_, ?_, ?_⟩
    · simp [hca']
    · simp only [blocks_store, if_neg hca, if_true]
    · intro x hx
      cases hx
    · intro a ha ha' _
      simp [ha, ha']
    · simp
    · simp
  | some x =>
    subst hnx
    have hx1 : l[i + 1]? = some x := hCn.symm
    obtain ⟨X, hX, -⟩ := hwf.block_at hx1
    rw [hx1] at hCe
    simp only [Option.getD_some] at hCe
    have hxc : x ≠ c := by omega
    have hcx : c ≠ x := by omega
    have hxn : x ≠ c + 32 + rounder n := by omega
    have hnx : c + 32 + rounder n ≠ x := by omega
    simp only [allocateMemoryWorstFit, hs, hfind, bind, Except.bind, Heap.load, Heap.modify, hc,
      hne, Bool.and_false, Bool.false_eq_true, if_false, blocks_store, if_true, hsub, hsp, hge,
      hi0, hnneg, Int.toNat_ofNat, hsp2, hnew, hnewi, MemControlBlock.construct, hnews, sizeofMCB,
      hca, hca', hxc, hcx, hxn, hnx, hX, bne_iff_ne, ne_eq, reduceCtorEq, not_false_eq_true,
      pure, Except.pure, h32, hfin]
    refine ⟨_, rfl, ?_, ?_, ?_, ?_, ?_, ?_⟩
    · simp [hca']
    · simp only [blocks_store, if_neg hca, if_neg hnx, if_true]
    · intro y hy
      cases hy
      refine ⟨X, hX, ?_⟩
      simp only [blocks_store, if_neg hxc, if_neg hxn, if_true]
    · intro a ha ha' hax
      have hax' : a ≠ x := fun e => hax (by rw [e])
      simp [ha, ha', hax']
    · simp
    · simp


/-! ## The tie-break of `worstFitFinder` -/

theorem worstFitLoop_lastBest {h : Heap} {l : List Nat} (hwf : WellFormed h l) (r : Nat) :
    ∀ (m i fuel k g : Nat), i + m = l.length → m < fuel → LastBest h l r i k g →
      ∃ c k', h.worstFitLoop r fuel l[i]? (some g) = .ok (some c) ∧
        LastBest h l r l.length k' c := by
  intro m
  induction m with
  | zero =>
    intro i fuel k g hi hfuel hbest
    obtain ⟨f, rfl⟩ : ∃ f, fuel = f + 1 := ⟨fuel - 1, by omega⟩
    have hnone : l[i]? = none := List.getElem?_eq_none (by omega)
    have hil : i = l.length := by omega
    obtain ⟨hk, bg, hbg, hav, hlast⟩ := hbest
    refine ⟨g, k, ?_, hk, bg, hbg, hav, by rw [← hil]; exact hlast⟩
    simp [worstFitLoop, hnone, load_some hbg, hav, bind, Except.bind, pure, Except.pure]
  | succ m ih =>
    intro i fuel k g hi hfuel hbest
    obtain ⟨f, rfl⟩ : ∃ f, fuel = f + 1 := ⟨fuel - 1, by omega⟩
    have hlt : i < l.length := by omega
    have hcur : l[i]? = some l[i] := List.getElem?_eq_getElem hlt
    obtain ⟨ba, hba, -, hnext, -, -⟩ := hwf.block_at hcur
    obtain ⟨hk, bg, hbg, hav, hlast⟩ := hbest
    by_cases hcond : ba.available = true ∧ r ≤ ba.size ∧ bg.size ≤ ba.size
    · have hstep : LastBest h l r (i + 1) i l[i] :=
        ⟨hcur, ba, hba, hcond.1, fun j hj hj' => absurd hj (by omega)⟩
      obtain ⟨c, k', hc, hbc⟩ := ih (i + 1) f i l[i] (by omega) (by omega) hstep
      refine ⟨c, k', ?_, hbc⟩
      rw [← hc]
      simp [worstFitLoop, hcur, skipUnavailable_available hbg hav, load_some hba, load_some hbg,
        hcond.1, hcond.2.1, hcond.2.2, bind, Except.bind, hnext]
    · have hstep : LastBest h l r (i + 1) k g := by
        refine ⟨hk, bg, hbg, hav, ?_⟩
        intro j hkj hj a b hja hb hbav hbr
        rcases Nat.lt_succ_iff_lt_or_eq.mp hj with hlt' | heq
        · exact hlast j hkj hlt' a b hja hb hbav hbr
        · subst heq
          rw [hcur] at hja
          cases hja
          rw [hba] at hb
          cases hb
          by_contra hge
          exact hcond ⟨hbav, hbr, by omega⟩
      obtain ⟨c, k', hc, hbc⟩ := ih (i + 1) f k g (by omega) (by omega) hstep
      refine ⟨c, k', ?_, hbc⟩
      rw [← hc]
      have hfalse : (ba.available && decide (r ≤ ba.size) && decide (bg.size ≤ ba.size)) = false := by
        rw [Bool.eq_false_iff]
        intro hcon
        simp only [Bool.and_eq_true, decide_eq_true_eq] at hcon
        exact hcond ⟨hcon.1.1, hcon.1.2, hcon.2⟩
      simp [worstFitLoop, hcur, skipUnavailable_available hbg hav, load_some hba, load_some hbg,
        hfalse, bind, Except.bind, hnext]

theorem worstFitFinder_lastBest {h : Heap} {l : List Nat} (hwf : WellFormed h l) (r fuel : Nat)
    (hlen : 2 ≤ l.length) (hfuel : l.length < fuel)
    (hav : ∃ a, a ∈ l ∧ ∃ b, h.blocks a = some b ∧ b.available = true) :
    ∃ c k, h.worstFitFinder fuel r = .ok (some c) ∧ LastBest h l r l.length k c := by
  classical
  have hex : ∃ k : Nat, ∃ y bv, l[k]? = some y ∧ h.blocks y = some bv ∧ bv.available = true := by
    obtain ⟨a, ha, b, hb, hbav⟩ := hav
    obtain ⟨k, hk⟩ := List.mem_iff_getElem?.mp ha
    exact ⟨k, a, b, hk, hb, hbav⟩
  have hfirst := Nat.find_spec hex
  have hmin : ∀ d, d < Nat.find hex → ∀ x bx, l[0 + d]? = some x → h.blocks x = some bx →
      bx.available = false := by
    intro d hd x bx hx hbx
    have hnot := Nat.find_min hex hd
    cases hxa : bx.available with
    | false => rfl
    | true => exact absurd ⟨x, bx, by simpa using hx, hbx, hxa⟩ hnot
  obtain ⟨y, bv, hy, hby, hyav⟩ := hfirst
  have h0 : l[0]? = some l[0] := List.getElem?_eq_getElem (by omega)
  have h1 : l[1]? = some l[1] := List.getElem?_eq_getElem (by omega)
  obtain ⟨b0, hb0, -, hnext0, -, -⟩ := hwf.block_at h0
  have hnext0' : b0.next = some l[1] := by rw [hnext0]; exact h1
  obtain ⟨f, rfl⟩ : ∃ f, fuel = f + 1 := ⟨fuel - 1, by omega⟩
  have hklt : Nat.find hex < l.length := index_lt_of_getElem? hy
  have hskip := skipUnavailable_first hwf (Nat.find hex) 0 l[0] (f + 1) h0 hmin
    ⟨y, bv, by simpa using hy, hby, hyav⟩ (by omega)
  have hskip' : h.skipUnavailable (f + 1) (some l[0]) = .ok (some y) := by
    rw [hskip, Nat.zero_add, hy]
  have hzero : b0.available = true → l[0] = y := by
    intro hb0av
    have hz : Nat.find hex = 0 := by
      by_contra hne
      have := hmin 0 (by omega) l[0] b0 h0 hb0
      rw [this] at hb0av
      cases hb0av
    rw [hz, h0] at hy
    cases hy
    rfl
  have hstep : LastBest h l r 1 (Nat.find hex) y :=
    ⟨hy, bv, hby, hyav, fun j hj hj' => absurd hj (by omega)⟩
  obtain ⟨c, k', hc, hbc⟩ :=
    worstFitLoop_lastBest hwf r (l.length - 1) 1 f (Nat.find hex) y (by omega) (by omega) hstep
  refine ⟨c, k', ?_, hbc⟩
  rw [← hc]
  have hpick : (if (b0.available && decide (r ≤ b0.size) && decide (bv.size ≤ b0.size)) = true
      then some l[0] else some y) = some y := by
    split
    · next hcon =>
      simp only [Bool.and_eq_true, decide_eq_true_eq] at hcon
      rw [hzero hcon.1.1]
    · rfl
  simp only [worstFitFinder, hwf.2.1, h0, load_some hb0, hnext0', bind, Except.bind, worstFitLoop,
    hskip', load_some hby, h1]
  simp only [ge_iff_le, hpick]
  simp

theorem WellFormed.le_of_index_le {h : Heap} {l : List Nat} (hwf : WellFormed h l)
    {i j a a' : Nat} (hi : l[i]? = some a) (hj : l[j]? = some a') (hij : i ≤ j) : a ≤ a' := by
  rcases Nat.eq_or_lt_of_le hij with heq | hlt
  · subst heq
    rw [hi] at hj
    cases hj
    exact le_refl _
  · obtain ⟨k, rfl⟩ : ∃ k, j = i + k + 1 := ⟨j - i - 1, by omega⟩
    exact le_of_lt (hwf.lt_of_lt k i hi hj)

/-! ## The constructor and `rounder` -/

theorem construct_block {N : Nat} (hN : sizeofMCB ≤ N) (hN' : N - sizeofMCB < 2 ^ 31) :
    (construct N).blocks 0 = some ⟨true, N - sizeofMCB, none, none⟩ := by
  simp only [sizeofMCB] at hN hN'
  have hsub : subSize N 32 = N - 32 := subSize_of_le hN (by omega)
  simp only [construct, if_true, MemControlBlock.construct, sizeofMCB, hsub,
    toInt_of_lt hN', toSizeT_natCast (show N - 32 < 2 ^ 64 by omega)]

theorem construct_wellFormed {N : Nat} (hN : sizeofMCB ≤ N) (hN' : N - sizeofMCB < 2 ^ 31) :
    WellFormed (construct N) [0] := by
  refine ⟨by simp, rfl, ?_⟩
  intro i hi
  have hi0 : i = 0 := by simpa using hi
  subst hi0
  have hb := construct_block hN hN'
  simp only [sizeofMCB] at hN hN' hb
  have hmem : (construct N).memory = N := rfl
  simp only [wfAt, List.getElem?_cons_zero, hb, if_true, List.length_cons, List.length_nil,
    zero_add, sizeofMCB, hmem]
  simp
  omega

theorem newHeap_of_le {N : Nat} (hN : sizeofMCB ≤ N) : newHeap N = .ok (construct N) := by
  unfold newHeap
  rw [if_neg (by omega)]
  rfl

theorem worstFitFinder_single {h : Heap} {a : Nat} {b : MemControlBlock}
    (hstart : h.startOfHeap = some a) (hb : h.blocks a = some b) (hnext : b.next = none)
    (fuel r : Nat) : h.worstFitFinder fuel r = .ok (some a) := by
  simp [worstFitFinder, hstart, load_some hb, hnext, bind, Except.bind, pure, Except.pure]

theorem rounder_of_lt {n : Nat} (hn : n + 3 < 2 ^ 64) :
    rounder n = if n % 4 = 0 then n else n + (4 - n % 4) := by
  unfold rounder addSize
  by_cases h4 : n % 4 = 0
  · simp [h4]
  · simp only [ne_eq, h4, not_false_eq_true, if_true, if_false]
    omega

/-! ## The merge with the previous block -/

theorem dealloc_merge_previous_exact {h : Heap} {b p : Nat} {B P : MemControlBlock}
    (hB : h.blocks b = some B) (hBp : B.previous = some p) (hP : h.blocks p = some P)
    (hPa : P.available = true) (hpb : p ≠ b)
    (hnext : B.next = none ∨
      ∃ n N, B.next = some n ∧ h.blocks n = some N ∧ N.available = false ∧ n ≠ b ∧ n ≠ p) :
    ∃ h', h.deallocateMemory (b + sizeofMCB) = .ok h' ∧ h'.startOfHeap = h.startOfHeap ∧
      h'.memory = h.memory ∧
      h'.blocks p =
        some { P with size := addSize (addSize P.size sizeofMCB) B.size, next := B.next } ∧
      (∀ n N, B.next = some n → h.blocks n = some N →
        h'.blocks n = some { N with previous := some p }) ∧
      (∀ x, x ≠ b → x ≠ p → B.next ≠ some x → h'.blocks x = h.blocks x) := by
  have hlt : ¬ (b + sizeofMCB < sizeofMCB) := by omega
  have hbp : b ≠ p := hpb.symm
  rcases hnext with hBn | ⟨n, N, hBn, hN, hNa, hnb, hnp⟩
  · simp only [deallocateMemory, hlt, if_false, Nat.add_sub_cancel, bind, Except.bind,
      Heap.load, Heap.modify, Heap.destroy, blocks_store, if_true, pure, Except.pure,
      bne_iff_ne, ne_eq, reduceCtorEq, not_false_eq_true, not_true_eq_false,
      Bool.false_eq_true, *]
    refine ⟨_, rfl, ?_, ?_, ?_, ?_, ?_⟩
    · simp
    · simp
    · simp [hpb]
    · intro n N hn
      cases hn
    · intro x hx hxp _
      simp [hx, hxp]
  · have hbn : b ≠ n := hnb.symm
    have hpn : p ≠ n := hnp.symm
    simp only [deallocateMemory, hlt, if_false, Nat.add_sub_cancel, bind, Except.bind,
      Heap.load, Heap.modify, Heap.destroy, blocks_store, if_true, pure, Except.pure,
      bne_iff_ne, ne_eq, reduceCtorEq, not_false_eq_true, not_true_eq_false,
      Bool.false_eq_true, *]
    refine ⟨_, rfl, ?_, ?_, ?_, ?_, ?_⟩
    · simp
    · simp
    · simp [hpb, hpn]
    · intro n' N' hn' hN'
      cases hn'
      rw [hN] at hN'
      cases hN'
      simp [hnb, hnp, hNa]
    · intro x hx hxp hxn
      have hxn' : x ≠ n := fun e => hxn (by rw [e])
      simp [hx, hxp, hxn']

theorem wfAt_of_block {h : Heap} {l : List Nat} {j a : Nat} {b : MemControlBlock}
    (ha : l[j]? = some a) (hb : h.blocks a = some b)
    (hprev : b.previous = (if j = 0 then none else l[j - 1]?)) (hnext : b.next = l[j + 1]?)
    (hsize : b.size < 2 ^ 64) (hend : a + sizeofMCB + b.size = (l[j + 1]?).getD h.memory) :
    wfAt h l j = true := by
  simp only [wfAt, ha, hb, Bool.and_eq_true, beq_iff_eq, decide_eq_true_eq]
  exact ⟨⟨⟨hprev, hnext⟩, hsize⟩, hend⟩

theorem WellFormed.end_le {h : Heap} {l : List Nat} (hwf : WellFormed h l) :
    ∀ (k j a : Nat) (b : MemControlBlock), j + k + 1 = l.length → l[j]? = some a →
      h.blocks a = some b → a + sizeofMCB + b.size ≤ h.memory := by
  intro k
  induction k with
  | zero =>
    intro j a b hj ha hb
    obtain ⟨b', hb', -, -, -, hend⟩ := hwf.block_at ha
    rw [hb] at hb'
    cases hb'
    have hnone : l[j + 1]? = none := List.getElem?_eq_none (by omega)
    rw [hnone] at hend
    simp only [Option.getD_none] at hend
    omega
  | succ k ih =>
    intro j a b hj ha hb
    obtain ⟨b', hb', -, -, -, hend⟩ := hwf.block_at ha
    rw [hb] at hb'
    cases hb'
    have hlt : j + 1 < l.length := by omega
    have hnx : l[j + 1]? = some l[j + 1] := List.getElem?_eq_getElem hlt
    obtain ⟨bn, hbn, -⟩ := hwf.block_at hnx
    have := ih (j + 1) l[j + 1] bn (by omega) hnx hbn
    rw [hnx] at hend
    simp only [Option.getD_some] at hend
    omega

theorem WellFormed.sum_drop {h : Heap} {l : List Nat} (hwf : WellFormed h l) :
    ∀ (k j a : Nat), j + k + 1 = l.length → l[j]? = some a →
      (((l.drop j).map (obs h)).map (fun p => sizeofMCB + p.2)).sum = h.memory - a := by
  intro k
  induction k with
  | zero =>
    intro j a hj ha
    obtain ⟨b, hb, -, -, -, hend⟩ := hwf.block_at ha
    have hnone : l[j + 1]? = none := List.getElem?_eq_none (by omega)
    rw [hnone] at hend
    simp only [Option.getD_none] at hend
    have hlt : j < l.length := index_lt_of_getElem? ha
    have hget : l[j] = a := by
      have := List.getElem?_eq_getElem hlt
      rw [ha] at this
      exact (Option.some.inj this).symm
    have hdrop : l.drop j = [a] := by
      rw [List.drop_eq_getElem_cons hlt, hget, List.drop_eq_nil_of_le (by omega)]
    have hobs : obs h a = (b.available, b.size) := by simp only [obs, hb]
    rw [hdrop]
    simp only [List.map_cons, List.map_nil, List.sum_cons, List.sum_nil, hobs]
    omega
  | succ k ih =>
    intro j a hj ha
    obtain ⟨b, hb, -, -, -, hend⟩ := hwf.block_at ha
    have hlt : j < l.length := by omega
    have hlt1 : j + 1 < l.length := by omega
    have hnx : l[j + 1]? = some l[j + 1] := List.getElem?_eq_getElem hlt1
    obtain ⟨bn, hbn, -⟩ := hwf.block_at hnx
    have hle := hwf.end_le k (j + 1) l[j + 1] bn (by omega) hnx hbn
    have hrec := ih (j + 1) l[j + 1] (by omega) hnx
    rw [hnx] at hend
    simp only [Option.getD_some] at hend
    have hget : l[j] = a := by
      have := List.getElem?_eq_getElem hlt
      rw [ha] at this
      exact (Option.some.inj this).symm
    have hobs : obs h a = (b.available, b.size) := by simp only [obs, hb]
    rw [List.drop_eq_getElem_cons hlt, hget]
    simp only [List.map_cons, List.sum_cons, hobs, hrec]
    omega

theorem WellFormed.total_eq {h : Heap} {l : List Nat} (hwf : WellFormed h l) {fuel a : Nat}
    (hfuel : l.length < fuel) (ha : l[0]? = some a) : h.total fuel = .ok (h.memory - a) := by
  have hlen : 0 < l.length := index_lt_of_getElem? ha
  have hsum := hwf.sum_drop (l.length - 1) 0 a (by omega) ha
  rw [List.drop_zero] at hsum
  simp only [Heap.total, print_linked hwf.linked hfuel, bind, Except.bind, pure, Except.pure,
    hsum]

/-! ## The claims -/

/-- C1 (conservation) does not hold for the code: on the fresh heap of 48 bytes the headers and
blocks add up to 48, and after `allocateMemoryWorstFit(16)`, an exact fit on the last block,
they add up to 64, because line 107 adds the request to the size of the block. -/
theorem conservation_fails_on_exact_fit :
    (construct 48).totalAfter 2 [] = .ok 48 ∧
    (construct 48).totalAfter 2 [.allocate 16] = .ok 64 :=
  ⟨rfl, rfl⟩

/-- C2 (no double issue) does not hold for the code: on the fresh heap of 48 bytes
`allocateMemoryWorstFit(16)` returns address 32 and leaves the only block in use, and
`allocateMemoryWorstFit(32)` right after it returns address 32 again. -/
theorem same_address_issued_twice :
    (construct 48).trace 2 [.allocate 16] = .ok ([some 32], [(false, 32)]) ∧
    (construct 48).trace 2 [.allocate 16, .allocate 32] =
      .ok ([some 32, some 32], [(false, 64)]) :=
  ⟨rfl, rfl⟩

/-- C3 (worst-fit selection).  On a well-formed list of at least two blocks in which some
available block has size at least `r`, `worstFitFinder` (given fuel beyond the length of the list)
returns a block of the list that is available, has size at least `r`, and is at least as large as
every available block of the list. -/
theorem worstFitFinder_selects_largest (h : Heap) (l : List Nat) (fuel r : Nat)
    (hwf : WellFormed h l) (hlen : 2 ≤ l.length) (hfuel : l.length < fuel)
    (hfit : ∃ a, a ∈ l ∧ ∃ b, h.blocks a = some b ∧ b.available = true ∧ r ≤ b.size) :
    ∃ c bc, h.worstFitFinder fuel r = .ok (some c) ∧ c ∈ l ∧ h.blocks c = some bc ∧
      bc.available = true ∧ r ≤ bc.size ∧
      ∀ a, a ∈ l → ∀ b, h.blocks a = some b → b.available = true → b.size ≤ bc.size := by
  obtain ⟨a, ha, b, hb, hbav, hbr⟩ := hfit
  obtain ⟨c, hc, bc, hbc, hcav, hcmem, hmax⟩ :=
    worstFitFinder_best hwf r fuel hlen hfuel ⟨a, ha, b, hb, hbav⟩
  have hle : ∀ a', a' ∈ l → ∀ b', h.blocks a' = some b' → b'.available = true →
      r ≤ b'.size → b'.size ≤ bc.size := by
    intro a' ha' b' hb' hav' hr'
    obtain ⟨j, hj⟩ := List.mem_iff_getElem?.mp ha'
    exact hmax j (index_lt_of_getElem? hj) a' b' hj hb' hav' hr'
  have hrc : r ≤ bc.size := le_trans hbr (hle a ha b hb hbav hbr)
  refine ⟨c, bc, hc, hcmem, hbc, hcav, hrc, ?_⟩
  intro a' ha' b' hb' hav'
  by_cases hr' : r ≤ b'.size
  · exact hle a' ha' b' hb' hav' hr'
  · omega

/-- Witness for C3: with free blocks of 40, 10 and 25 bytes kept apart by blocks in use and a
request of 8 bytes, the block of 40 bytes (at address 0) is chosen. -/
theorem worstFitFinder_selects_largest_witness :
    WellFormed threeHoles [0, 72, 112, 154, 194] ∧
    threeHoles.worstFitFinder 6 8 = .ok (some 0) ∧
    ∃ c bc, threeHoles.worstFitFinder 6 8 = .ok (some c) ∧ c ∈ [0, 72, 112, 154, 194] ∧
      threeHoles.blocks c = some bc ∧ bc.available = true ∧ 8 ≤ bc.size ∧
      ∀ a, a ∈ [0, 72, 112, 154, 194] → ∀ b, threeHoles.blocks a = some b →
        b.available = true → b.size ≤ bc.size :=
  ⟨by decide, rfl,
    worstFitFinder_selects_largest threeHoles [0, 72, 112, 154, 194] 6 8 (by decide) (by decide)
      (by decide) ⟨0, by decide, ⟨true, 40, none, some 72⟩, rfl, rfl, by decide⟩⟩

/-- C5 (exact-fit reuse) does not hold for the code.  When the chosen block is the last one
(fresh heap of 48 bytes, request of 16 bytes, payload of 16 bytes) the address is returned but
the size of the block becomes 32.  When it is not the last one (a free block of 16 bytes followed
by a block in use) the call returns `nullptr` and the free block is left marked in use. -/
theorem exact_fit_doubles_size_or_fails :
    (construct 48).print 2 = .ok [(true, 16)] ∧
    (construct 48).trace 2 [.allocate 16] = .ok ([some 32], [(false, 32)]) ∧
    WellFormed holeThenUsed [0, 48] ∧
    holeThenUsed.worstFitFinder 3 (rounder 16) = .ok (some 0) ∧
    holeThenUsed.trace 3 [.allocate 16] = .ok ([none], [(false, 16), (false, 16)]) :=
  ⟨rfl, rfl, by decide, rfl, rfl⟩

/-- C6 (no adjacent free blocks).  On a well-formed list without two available neighbours,
for a block `b` of the list that is in use: whenever `deallocateMemory` on the payload address
of `b` completes, `print` on the resulting heap completes and shows no two available
neighbours; and the call does complete whenever the block after `b` is absent or in use. -/
theorem deallocateMemory_no_adjacent_free (h : Heap) (l : List Nat) (i b fuel : Nat)
    (B : MemControlBlock) (out : List (Bool × Nat))
    (hwf : WellFormed h l) (hfuel : l.length < fuel)
    (hout : h.print fuel = .ok out) (hna : noAdjacentFree out = true)
    (hi : l[i]? = some b) (hB : h.blocks b = some B) (_huse : B.available = false) :
    (∀ h', h.deallocateMemory (b + sizeofMCB) = .ok h' →
      ∃ out', h'.print fuel = .ok out' ∧ noAdjacentFree out' = true) ∧
    ((∀ n N, l[i + 1]? = some n → h.blocks n = some N → N.available = false) →
      ∃ h', h.deallocateMemory (b + sizeofMCB) = .ok h') := by
  have hsep : Separated h l := separated_of_print hwf.linked hfuel hout hna
  rcases dealloc_outcome hwf hfuel hsep hi hB with ⟨hfault, n, N, hn, hN, hNa⟩ | ⟨h1, hd, hres⟩
  · refine ⟨?_, ?_⟩
    · intro h' hdone
      rw [hfault] at hdone
      cases hdone
    · intro hnext
      have := hnext n N hn hN
      rw [hNa] at this
      cases this
  · refine ⟨?_, fun _ => ⟨h1, hd⟩⟩
    intro h' hdone
    rw [hd] at hdone
    cases hdone
    exact hres

/-- Witness for C6: in the list free 16, used 16, used 16, free 8 the second block is
deallocated; it is merged into the first one. -/
theorem deallocateMemory_no_adjacent_free_witness :
    WellFormed holeUsedUsedHole [0, 48, 96, 144] ∧
    holeUsedUsedHole.print 5 = .ok [(true, 16), (false, 16), (false, 16), (true, 8)] ∧
    (holeUsedUsedHole.deallocateMemory (48 + sizeofMCB) >>= fun h' => h'.print 5) =
      .ok [(true, 64), (false, 16), (true, 8)] ∧
    (∀ h', holeUsedUsedHole.deallocateMemory (48 + sizeofMCB) = .ok h' →
      ∃ out', h'.print 5 = .ok out' ∧ noAdjacentFree out' = true) ∧
    ((∀ n N, [0, 48, 96, 144][1 + 1]? = some n → holeUsedUsedHole.blocks n = some N →
        N.available = false) →
      ∃ h', holeUsedUsedHole.deallocateMemory (48 + sizeofMCB) = .ok h') :=
  ⟨by decide, rfl, rfl,
    deallocateMemory_no_adjacent_free holeUsedUsedHole [0, 48, 96, 144] 1 48 5
      ⟨false, 16, some 0, some 96⟩ [(true, 16), (false, 16), (false, 16), (true, 8)]
      (by decide) (by decide) rfl rfl rfl rfl rfl⟩

/-- C7 (coalescing on free) does not hold for the code: on the fresh heap of 192 bytes three
allocations of 16 bytes give A, B, C at payload addresses 32, 80, 128 and a free remainder;
`deallocateMemory` on A cuts the list after A (line 230 clears `next`), and `deallocateMemory`
on C then reads through the null `next` of the remainder (line 223). -/
theorem free_A_then_C_faults :
    (construct 192).trace 5 [.allocate 16, .allocate 16, .allocate 16] =
      .ok ([some 32, some 80, some 128], [(false, 16), (false, 16), (false, 16), (true, 16)]) ∧
    (construct 192).trace 5 [.allocate 16, .allocate 16, .allocate 16, .deallocate 32] =
      .ok ([some 32, some 80, some 128], [(true, 16)]) ∧
    (construct 192).trace 5
      [.allocate 16, .allocate 16, .allocate 16, .deallocate 32, .deallocate 128] =
      .error .nullDeref :=
  ⟨rfl, rfl, rfl⟩

/-- C8 (no access through an absent neighbour) does not hold for the code: deallocating the
first block of a well-formed list whose second block is free reads `curMCB->previous->size`
through `nullptr` (line 221), and deallocating a block whose free successor is the last block
writes `curMCB->next->next->previous` through `nullptr` (line 223). -/
theorem deallocate_reads_through_null :
    WellFormed usedThenHole [0, 48] ∧
    usedThenHole.blocks 0 = some ⟨false, 16, none, some 48⟩ ∧
    usedThenHole.deallocateMemory (0 + sizeofMCB) = .error .nullDeref ∧
    (construct 96).trace 2 [.allocate 16, .deallocate 32] = .error .nullDeref ∧
    (construct 144).trace 4 [.allocate 16, .allocate 16] =
      .ok ([some 32, some 80], [(false, 16), (false, 16), (true, 16)]) ∧
    (construct 144).trace 4 [.allocate 16, .allocate 16, .deallocate 80] = .error .nullDeref :=
  ⟨by decide, rfl, rfl, rfl, rfl, rfl⟩

/-- C9 (exhaustion fails) does not hold for the code: on the fresh heap of 96 bytes, whose only
block has 64 bytes, the request `2 ^ 32` is rounded to `2 ^ 32`, truncated to the `int` 0, and
`allocateMemoryWorstFit` returns address 32, of a block of size 0. -/
theorem oversized_request_gets_an_address :
    (construct 96).print 2 = .ok [(true, 64)] ∧
    rounder (2 ^ 32) = 2 ^ 32 ∧
    (construct 96).trace 3 [.allocate (2 ^ 32)] = .ok ([some 32], [(false, 0), (true, 32)]) :=
  ⟨rfl, rfl, rfl⟩

/-- C10 (failed allocation is atomic) does not hold for the code: a call that returns `nullptr`
has already marked the chosen block in use (line 118).  Shown for a request larger than the
heap, for a slack smaller than a header, and for an exact fit on a block that is not last. -/
theorem failed_allocation_marks_block_in_use :
    (construct 96).print 2 = .ok [(true, 64)] ∧
    (construct 96).trace 2 [.allocate 100] = .ok ([none], [(false, 64)]) ∧
    (construct 96).trace 2 [.allocate 40] = .ok ([none], [(false, 64)]) ∧
    holeThenUsed.print 3 = .ok [(true, 16), (false, 16)] ∧
    holeThenUsed.trace 3 [.allocate 16] = .ok ([none], [(false, 16), (false, 16)]) :=
  ⟨rfl, rfl, rfl, rfl, rfl⟩

/-- C11 (no free block means out of memory) does not hold for the code.  On the well-formed
list made of one block in use (also reached by a failed `allocateMemoryWorstFit(100)` on the
fresh heap of 96 bytes) `allocateMemoryWorstFit(16)` splits the block in use and returns
address 32.  On the well-formed list of two blocks in use (also reached from the fresh heap of
96 bytes by `allocateMemoryWorstFit(16)` and a failed `allocateMemoryWorstFit(100)`) the inner
loop of `worstFitFinder` reads `biggest->available` through `nullptr`. -/
theorem allocation_without_free_block :
    WellFormed usedOnly [0] ∧
    usedOnly.print 2 = .ok [(false, 64)] ∧
    usedOnly.trace 3 [.allocate 16] = .ok ([some 32], [(false, 16), (true, 16)]) ∧
    (construct 96).trace 3 [.allocate 100] = .ok ([none], [(false, 64)]) ∧
    (construct 96).trace 3 [.allocate 100, .allocate 16] =
      .ok ([none, some 32], [(false, 16), (true, 16)]) ∧
    WellFormed twoUsed [0, 48] ∧
    twoUsed.print 3 = .ok [(false, 16), (false, 16)] ∧
    twoUsed.trace 3 [.allocate 8] = .error .nullDeref ∧
    (construct 96).trace 3 [.allocate 16, .allocate 100] =
      .ok ([some 32, none], [(false, 16), (false, 16)]) ∧
    (construct 96).trace 3 [.allocate 16, .allocate 100, .allocate 8] = .error .nullDeref :=
  ⟨by decide, rfl, rfl, rfl, rfl, by decide, rfl, rfl, rfl, rfl⟩

/-- C12 (the search returns none when nothing fits) does not hold for the code: on the
well-formed list of a block in use and a free block of 16 bytes, `worstFitFinder(32)` returns the
free block at address 48, and on the well-formed list of two blocks in use it reads through
`nullptr`; it returns `nullptr` in neither case. -/
theorem search_returns_block_that_does_not_fit :
    WellFormed usedThenHole [0, 48] ∧
    usedThenHole.print 3 = .ok [(false, 16), (true, 16)] ∧
    usedThenHole.worstFitFinder 3 32 = .ok (some 48) ∧
    WellFormed twoUsed [0, 48] ∧
    twoUsed.worstFitFinder 3 32 = .error .nullDeref :=
  ⟨by decide, rfl, rfl, by decide, rfl⟩

/-- C13, as amended (worst-fit tie-break).  On a well-formed list of at least two blocks in which
some available block has size at least `r`, `worstFitFinder` returns an available block of
greatest size, at least `r`, and among the available blocks of that size the one with the
highest address (the last one met in list order). -/
theorem worstFitFinder_tie_goes_to_last (h : Heap) (l : List Nat) (fuel r : Nat)
    (hwf : WellFormed h l) (hlen : 2 ≤ l.length) (hfuel : l.length < fuel)
    (hfit : ∃ a, a ∈ l ∧ ∃ b, h.blocks a = some b ∧ b.available = true ∧ r ≤ b.size) :
    ∃ c bc, h.worstFitFinder fuel r = .ok (some c) ∧ c ∈ l ∧ h.blocks c = some bc ∧
      bc.available = true ∧ r ≤ bc.size ∧
      (∀ a, a ∈ l → ∀ b, h.blocks a = some b → b.available = true → b.size ≤ bc.size) ∧
      (∀ a, a ∈ l → ∀ b, h.blocks a = some b → b.available = true → b.size = bc.size →
        a ≤ c) := by
  obtain ⟨a, ha, b, hb, hbav, hbr⟩ := hfit
  obtain ⟨c, hc, bc, hbc, hcav, hcmem, hmax⟩ :=
    worstFitFinder_best hwf r fuel hlen hfuel ⟨a, ha, b, hb, hbav⟩
  obtain ⟨c', k, hc', hk, bc', hbc', -, hlast⟩ :=
    worstFitFinder_lastBest hwf r fuel hlen hfuel ⟨a, ha, b, hb, hbav⟩
  rw [hc] at hc'
  cases hc'
  rw [hbc] at hbc'
  cases hbc'
  have hle : ∀ a', a' ∈ l → ∀ b', h.blocks a' = some b' → b'.available = true →
      r ≤ b'.size → b'.size ≤ bc.size := by
    intro a' ha' b' hb' hav' hr'
    obtain ⟨j, hj⟩ := List.mem_iff_getElem?.mp ha'
    exact hmax j (index_lt_of_getElem? hj) a' b' hj hb' hav' hr'
  have hrc : r ≤ bc.size := le_trans hbr (hle a ha b hb hbav hbr)
  refine ⟨c, bc, hc, hcmem, hbc, hcav, hrc, ?_, ?_⟩
  · intro a' ha' b' hb' hav'
    by_cases hr' : r ≤ b'.size
    · exact hle a' ha' b' hb' hav' hr'
    · omega
  · intro a' ha' b' hb' hav' hsize
    obtain ⟨j, hj⟩ := List.mem_iff_getElem?.mp ha'
    have hjk : j ≤ k := by
      by_contra hgt
      have := hlast j (by omega) (index_lt_of_getElem? hj) a' b' hj hb' hav' (by omega)
      omega
    exact hwf.le_of_index_le hj hk hjk

/-- C13 as stated does not hold: with free blocks of 16 bytes at addresses 0 and 88 kept apart
by a block in use, `worstFitFinder(8)` returns the block at address 88, not the one at the
lowest address. -/
theorem tie_not_broken_by_lowest_address :
    WellFormed equalHoles [0, 48, 88] ∧
    equalHoles.blocks 0 = some ⟨true, 16, none, some 48⟩ ∧
    equalHoles.blocks 88 = some ⟨true, 16, some 48, none⟩ ∧
    equalHoles.worstFitFinder 4 8 = .ok (some 88) :=
  ⟨by decide, rfl, rfl, rfl⟩

/-- Witness for C13: the two equal free blocks at addresses 0 and 88. -/
theorem worstFitFinder_tie_goes_to_last_witness :
    WellFormed equalHoles [0, 48, 88] ∧
    ∃ c bc, equalHoles.worstFitFinder 4 8 = .ok (some c) ∧ c ∈ [0, 48, 88] ∧
      equalHoles.blocks c = some bc ∧ bc.available = true ∧ 8 ≤ bc.size ∧
      (∀ a, a ∈ [0, 48, 88] → ∀ b, equalHoles.blocks a = some b → b.available = true →
        b.size ≤ bc.size) ∧
      (∀ a, a ∈ [0, 48, 88] → ∀ b, equalHoles.blocks a = some b → b.available = true →
        b.size = bc.size → a ≤ c) :=
  ⟨by decide,
    worstFitFinder_tie_goes_to_last equalHoles [0, 48, 88] 4 8 (by decide) (by decide)
      (by decide) ⟨0, by decide, ⟨true, 16, none, some 48⟩, rfl, rfl, by decide⟩⟩

/-- C14, as amended (rounding).  For every request `n` of at most `2 ^ 64 - 4`, `rounder n` is
the smallest multiple of 4 that is at least `n`: it is a multiple of 4, lies in `n .. n + 3`, is
below every other such multiple, and is left unchanged by `rounder`.  In particular
`rounder 13 = 16`, and allocating 13 bytes from the fresh heap of `N` bytes, `80 ≤ N` and
`N - 32` below `2 ^ 31`, returns the first payload address and leaves the allocated block in
use with size 16. -/
theorem rounder_rounds_up (n N fuel : Nat) (hn : n + 3 < 2 ^ 64) (hN : 80 ≤ N)
    (hN' : N - sizeofMCB < 2 ^ 31) :
    rounder n % 4 = 0 ∧ n ≤ rounder n ∧ rounder n < n + 4 ∧
    (∀ m, m % 4 = 0 → n ≤ m → rounder n ≤ m) ∧
    rounder (rounder n) = rounder n ∧
    rounder 13 = 16 ∧
    ∃ h', (construct N).allocateMemoryWorstFit fuel 13 = .ok (h', some sizeofMCB) ∧
      h'.blocks 0 = some ⟨false, 16, none, some 48⟩ := by
  have hr := rounder_of_lt hn
  have h13 : rounder 13 = 16 := by decide
  refine ⟨?_, ?_, ?_, ?_, ?_, h13, ?_⟩
  · rw [hr]; split <;> omega
  · rw [hr]; split <;> omega
  · rw [hr]; split <;> omega
  · intro m hm hnm
    rw [hr]; split <;> omega
  · have h4 : rounder n % 4 = 0 := by rw [hr]; split <;> omega
    have hidem : ∀ k, k % 4 = 0 → rounder k = k := by
      intro k hk
      simp [rounder, hk]
    exact hidem _ h4
  · have h32 : sizeofMCB ≤ N := by simp only [sizeofMCB]; omega
    have hb := construct_block h32 hN'
    have hfind : (construct N).worstFitFinder fuel (rounder 13) = .ok (some 0) :=
      worstFitFinder_single rfl hb rfl fuel _
    simp only [sizeofMCB] at hN'
    obtain ⟨h', halloc, hc, -⟩ :=
      allocate_split_of_fit (construct N) [0] fuel 13 0 (N - sizeofMCB) none none
        (construct_wellFormed h32 hN') hfind hb
        (by rw [h13]; simp only [sizeofMCB]; omega) (by rw [h13]; omega)
        (by rw [h13]; simp only [sizeofMCB]; omega)
    refine ⟨h', ?_, ?_⟩
    · simpa using halloc
    · rw [hc, h13]
      rfl

/-- C14 as stated does not hold: `rounder (2 ^ 64 - 1)` wraps around to 0, which is below the
request; and on the fresh heap of `2 ^ 32 + 32` bytes, whose block gets size 0, allocating
13 bytes returns `nullptr`. -/
theorem rounder_wraps_around :
    rounder (2 ^ 64 - 1) = 0 ∧ ¬ (2 ^ 64 - 1 ≤ rounder (2 ^ 64 - 1)) ∧
    (construct (2 ^ 32 + 32)).trace 2 [.allocate 13] = .ok ([none], [(false, 0)]) :=
  ⟨by decide, by decide, rfl⟩

/-- Witness for C14: the request 13 and the fresh heap of 96 bytes. -/
theorem rounder_rounds_up_witness :
    13 + 3 < 2 ^ 64 ∧ 80 ≤ 96 ∧ 96 - sizeofMCB < 2 ^ 31 ∧
    rounder 13 % 4 = 0 ∧ 13 ≤ rounder 13 ∧ rounder 13 < 13 + 4 ∧
    (∀ m, m % 4 = 0 → 13 ≤ m → rounder 13 ≤ m) ∧
    rounder (rounder 13) = rounder 13 ∧
    rounder 13 = 16 ∧
    ∃ h', (construct 96).allocateMemoryWorstFit 2 13 = .ok (h', some sizeofMCB) ∧
      h'.blocks 0 = some ⟨false, 16, none, some 48⟩ :=
  ⟨by decide, by decide, by decide,
    rounder_rounds_up 13 96 2 (by decide) (by decide) (by decide)⟩

/-- C15 (construction) does not hold for the code: `Heap(2 ^ 31 + 32)` leaves its single block
with size `2 ^ 64 - 2 ^ 31` instead of `2 ^ 31`, the size passing through the `int` parameter
of the `MemControlBlock` constructor; `Heap(2 ^ 32 + 32)` leaves it with size 0. -/
theorem construct_truncates_size :
    (construct (2 ^ 31 + 32)).print 2 = .ok [(true, 2 ^ 64 - 2 ^ 31)] ∧
    (construct (2 ^ 32 + 32)).print 2 = .ok [(true, 0)] :=
  ⟨rfl, rfl⟩

/-- C16 (construction error) does not hold for the code: the constructor makes no test of the
size.  For `Heap(16)` the header to be placed has the wrapped-around size `2 ^ 64 - 16`, and
placing its 32 bytes at the start of the array of 16 bytes writes past the end of the array:
undefined behaviour, not a construction error.  From 32 bytes on the header fits (`Heap(32)` has
one free block of size 0). -/
theorem construct_16_writes_past_array :
    MemControlBlock.construct true (toInt (subSize 16 sizeofMCB)) =
      ⟨true, 2 ^ 64 - 16, none, none⟩ ∧
    newHeap 16 = .error .wildPointer ∧
    (newHeap 32 >>= fun h => h.print 2) = .ok [(true, 0)] :=
  ⟨rfl, rfl, rfl⟩

/-- C17 (round trip) does not hold for the code.  On the fresh heap of 96 bytes
`allocateMemoryWorstFit(16)` splits the block and returns address 32, and `deallocateMemory(32)`
right after it reads `curMCB->previous->size` through `nullptr` (line 221).  Where the call
completes (a free block of 64 bytes between two blocks in use), the free remainder is added to
the previous block, which is in use, and the freed block leaves the list: the available payload
is 64 before and 0 after. -/
theorem allocate_then_free_faults_or_loses_payload :
    (construct 96).trace 3 [.allocate 16] = .ok ([some 32], [(false, 16), (true, 16)]) ∧
    (construct 96).trace 3 [.allocate 16, .deallocate 32] = .error .nullDeref ∧
    WellFormed holeBetweenUsed [0, 48, 144] ∧
    holeBetweenUsed.print 5 = .ok [(false, 16), (true, 64), (false, 16)] ∧
    holeBetweenUsed.trace 5 [.allocate 16] =
      .ok ([some 80], [(false, 16), (false, 16), (true, 16), (false, 16)]) ∧
    holeBetweenUsed.trace 5 [.allocate 16, .deallocate 80] =
      .ok ([some 80], [(false, 64), (false, 16)]) :=
  ⟨rfl, rfl, by decide, rfl, rfl, rfl⟩

/-- C18 (merge with previous).  On a well-formed list in an arena whose length is a `size_t`,
for a block `b` in use whose previous block `p` is available and whose next block is absent or in
use, `deallocateMemory` on the payload address of `b` completes; afterwards `p` is available with
size `p.size + sizeofMCB + b.size` and has the former `next` of `b` as `next`, that block (when
there is one) has `p` as `previous`, every header other than `b`, `p` and that block is
unchanged, the list without `b` is well formed, and the sum of header and block sizes over the
list is as before. -/
theorem deallocateMemory_merges_into_previous (h : Heap) (l : List Nat) (i b p fuel : Nat)
    (B P : MemControlBlock) (hwf : WellFormed h l) (hmem : h.memory < 2 ^ 64)
    (hfuel : l.length < fuel) (hi : l[i]? = some b) (hipos : 0 < i) (hp : l[i - 1]? = some p)
    (hB : h.blocks b = some B) (_huse : B.available = false)
    (hP : h.blocks p = some P) (hPa : P.available = true)
    (hnext : ∀ n N, l[i + 1]? = some n → h.blocks n = some N → N.available = false) :
    ∃ h', h.deallocateMemory (b + sizeofMCB) = .ok h' ∧
      h'.blocks p = some { P with size := P.size + sizeofMCB + B.size, next := B.next } ∧
      (∀ n N, B.next = some n → h.blocks n = some N →
        h'.blocks n = some { N with previous := some p }) ∧
      (∀ x, x ≠ b → x ≠ p → B.next ≠ some x → h'.blocks x = h.blocks x) ∧
      WellFormed h' (l.eraseIdx i) ∧ b ∉ l.eraseIdx i ∧
      h'.total fuel = h.total fuel := by
  have hilt : i < l.length := index_lt_of_getElem? hi
  obtain ⟨B0, hB0, hBp, hBn, hBs, hBe⟩ := hwf.block_at hi
  rw [hB] at hB0
  cases hB0
  obtain ⟨P0, hP0, hPp, hPn, hPs, hPe⟩ := hwf.block_at hp
  rw [hP] at hP0
  cases hP0
  have hi1 : i - 1 + 1 = i := by omega
  rw [hi1, hi] at hPe
  simp only [Option.getD_some] at hPe
  rw [if_neg (by omega), hp] at hBp
  have hpb : p ≠ b := hwf.ne_of_index_ne hp hi (by omega)
  have hBend := hwf.end_le (l.length - i - 1) i b B (by omega) hi hB
  simp only [sizeofMCB] at hPe hBend hBe
  have hadd : addSize (addSize P.size sizeofMCB) B.size = P.size + sizeofMCB + B.size := by
    simp only [addSize, sizeofMCB]
    omega
  have hnext' : B.next = none ∨
      ∃ n N, B.next = some n ∧ h.blocks n = some N ∧ N.available = false ∧ n ≠ b ∧ n ≠ p := by
    cases hnx : l[i + 1]? with
    | none => exact Or.inl (by rw [hBn, hnx])
    | some n =>
      obtain ⟨N, hN, -⟩ := hwf.block_at hnx
      exact Or.inr ⟨n, N, by rw [hBn, hnx], hN, hnext n N hnx hN,
        hwf.ne_of_index_ne hnx hi (by omega), hwf.ne_of_index_ne hnx hp (by omega)⟩
  obtain ⟨h', hd, hstart, hmem', hp', hn', hframe⟩ :=
    dealloc_merge_previous_exact hB hBp hP hPa hpb hnext'
  rw [hadd] at hp'
  -- headers away from `b`, `p` and the block after `b` are as before
  have hsame : ∀ j a, l[j]? = some a → j ≠ i → j ≠ i - 1 → j ≠ i + 1 →
      h'.blocks a = h.blocks a := by
    intro j a hj hji hjp hjn
    refine hframe a (hwf.ne_of_index_ne hj hi hji) (hwf.ne_of_index_ne hj hp hjp) ?_
    rw [hBn]
    intro hcon
    exact hjn (hwf.index_inj hj hcon)
  have hget : ∀ j, (l.eraseIdx i)[j]? = if j < i then l[j]? else l[j + 1]? :=
    fun j => List.getElem?_eraseIdx l i j
  have hwf' : WellFormed h' (l.eraseIdx i) := by
    refine ⟨?_, ?_, ?_⟩
    · intro hnil
      have := congrArg List.length hnil
      rw [List.length_eraseIdx, if_pos hilt] at this
      simp only [List.length_nil] at this
      omega
    · rw [hstart, hwf.2.1, hget 0, if_pos hipos]
    · intro j hj
      rw [List.length_eraseIdx, if_pos hilt] at hj
      by_cases hj1 : j + 1 < i
      · obtain ⟨a, ha⟩ : ∃ a, l[j]? = some a := ⟨l[j], List.getElem?_eq_getElem (by omega)⟩
        obtain ⟨ba, hba, hbap, hban, hbas, hbae⟩ := hwf.block_at ha
        have hgj : (l.eraseIdx i)[j]? = some a := by
          rw [hget j, if_pos (show j < i by omega), ha]
        have hba' : h'.blocks a = some ba := by
          rw [hsame j a ha (by omega) (by omega) (by omega)]
          exact hba
        refine wfAt_of_block hgj hba' ?_ ?_ hbas ?_
        · rw [hbap, hget (j - 1), if_pos (show j - 1 < i by omega)]
        · rw [hban, hget (j + 1), if_pos hj1]
        · rw [hbae, hget (j + 1), if_pos hj1, hmem']
      · by_cases hj2 : j + 1 = i
        · have hjp : j = i - 1 := by omega
          rw [hjp]
          have hgp : (l.eraseIdx i)[i - 1]? = some p := by
            rw [hget (i - 1), if_pos (show i - 1 < i by omega), hp]
          refine wfAt_of_block hgp hp' ?_ ?_ ?_ ?_
          · simp only
            rw [hPp, hget (i - 1 - 1), if_pos (show i - 1 - 1 < i by omega)]
          · simp only
            rw [hBn, hget (i - 1 + 1), if_neg (show ¬ (i - 1 + 1 < i) by omega), hi1]
          · simp only [sizeofMCB]
            omega
          · simp only [sizeofMCB]
            rw [hget (i - 1 + 1), if_neg (show ¬ (i - 1 + 1 < i) by omega), hi1, hmem', ← hBe]
            omega
        · by_cases hj3 : j = i
          · rw [hj3]
            obtain ⟨n, hnx⟩ : ∃ n, l[i + 1]? = some n :=
              ⟨l[i + 1], List.getElem?_eq_getElem (by omega)⟩
            obtain ⟨N, hN, hNp, hNn, hNs, hNe⟩ := hwf.block_at hnx
            have hBn' : B.next = some n := by rw [hBn, hnx]
            have hN' := hn' n N hBn' hN
            have hgi : (l.eraseIdx i)[i]? = some n := by
              rw [hget i, if_neg (show ¬ (i < i) by omega), hnx]
            refine wfAt_of_block hgi hN' ?_ ?_ hNs ?_
            · simp only
              rw [if_neg (show ¬ i = 0 by omega), hget (i - 1),
                if_pos (show i - 1 < i by omega), hp]
            · simp only
              rw [hNn, hget (i + 1), if_neg (show ¬ (i + 1 < i) by omega)]
            · simp only
              rw [hNe, hget (i + 1), if_neg (show ¬ (i + 1 < i) by omega), hmem']
          · obtain ⟨a, ha⟩ : ∃ a, l[j + 1]? = some a :=
              ⟨l[j + 1], List.getElem?_eq_getElem (by omega)⟩
            obtain ⟨ba, hba, hbap, hban, hbas, hbae⟩ := hwf.block_at ha
            have hgj : (l.eraseIdx i)[j]? = some a := by
              rw [hget j, if_neg (show ¬ (j < i) by omega), ha]
            have hba' : h'.blocks a = some ba := by
              rw [hsame (j + 1) a ha (by omega) (by omega) (by omega)]
              exact hba
            refine wfAt_of_block hgj hba' ?_ ?_ hbas ?_
            · rw [hbap, if_neg (show ¬ j + 1 = 0 by omega), if_neg (show ¬ j = 0 by omega),
                hget (j - 1), if_neg (show ¬ (j - 1 < i) by omega)]
              congr 1
              omega
            · rw [hban, hget (j + 1), if_neg (show ¬ (j + 1 < i) by omega)]
            · rw [hbae, hget (j + 1), if_neg (show ¬ (j + 1 < i) by omega), hmem']
  have hnotin : b ∉ l.eraseIdx i := by
    intro hin
    obtain ⟨j, hj⟩ := List.mem_iff_getElem?.mp hin
    rw [hget j] at hj
    split at hj
    · have := hwf.index_inj hj hi
      omega
    · have := hwf.index_inj hj hi
      omega
  have h0 : l[0]? = some l[0] := List.getElem?_eq_getElem (by omega)
  have h0' : (l.eraseIdx i)[0]? = some l[0] := by rw [hget 0, if_pos hipos, h0]
  have hfuel' : (l.eraseIdx i).length < fuel := by
    rw [List.length_eraseIdx, if_pos hilt]
    omega
  refine ⟨h', hd, hp', hn', hframe, hwf', hnotin, ?_⟩
  rw [hwf'.total_eq hfuel' h0', hwf.total_eq hfuel h0, hmem']

/-- Witness for C18: in the list free 16, used 16, used 16, free 8 the second block is
deallocated. -/
theorem deallocateMemory_merges_into_previous_witness :
    WellFormed holeUsedUsedHole [0, 48, 96, 144] ∧ holeUsedUsedHole.memory < 2 ^ 64 ∧
    (∀ n N, [0, 48, 96, 144][1 + 1]? = some n → holeUsedUsedHole.blocks n = some N →
      N.available = false) ∧
    holeUsedUsedHole.trace 5 [.deallocate 80] = .ok ([], [(true, 64), (false, 16), (true, 8)]) ∧
    ∃ h', holeUsedUsedHole.deallocateMemory (48 + sizeofMCB) = .ok h' ∧
      h'.blocks 0 = some { (⟨true, 16, none, some 48⟩ : MemControlBlock) with
        size := 16 + sizeofMCB + 16, next := some 96 } ∧
      (∀ n N, some 96 = some n → holeUsedUsedHole.blocks n = some N →
        h'.blocks n = some { N with previous := some 0 }) ∧
      (∀ x, x ≠ 48 → x ≠ 0 → some 96 ≠ some x → h'.blocks x = holeUsedUsedHole.blocks x) ∧
      WellFormed h' ([0, 48, 96, 144].eraseIdx 1) ∧ 48 ∉ [0, 48, 96, 144].eraseIdx 1 ∧
      h'.total 5 = holeUsedUsedHole.total 5 :=
  have hnext : ∀ n N, [0, 48, 96, 144][1 + 1]? = some n → holeUsedUsedHole.blocks n = some N →
      N.available = false := by
    intro n N hn hN
    have hn96 : n = 96 := by simpa using hn.symm
    subst hn96
    have hb : holeUsedUsedHole.blocks 96 = some ⟨false, 16, some 48, some 144⟩ := rfl
    rw [hb] at hN
    cases hN
    rfl
  ⟨by decide, by decide, hnext, rfl,
    deallocateMemory_merges_into_previous holeUsedUsedHole [0, 48, 96, 144] 1 48 0 5
      ⟨false, 16, some 0, some 96⟩ ⟨true, 16, none, some 48⟩ (by decide) (by decide) (by decide)
      rfl (by decide) rfl rfl rfl rfl rfl hnext⟩

/-- C19 (merge with next goes into the freed block) does not hold for the code: in the
well-formed list used 16, used 16, free 16, used 16, deallocating the second block adds the
free block to the first block, which is in use (line 221 writes `curMCB->previous->size`); the
freed block keeps size 16, loses both links and leaves the list. -/
theorem merge_with_next_goes_into_previous :
    WellFormed usedUsedHoleUsed [0, 48, 96, 144] ∧
    usedUsedHoleUsed.print 5 = .ok [(false, 16), (false, 16), (true, 16), (false, 16)] ∧
    usedUsedHoleUsed.trace 5 [.deallocate 80] = .ok ([], [(false, 64), (false, 16)]) ∧
    usedUsedHoleUsed.headersAfterFree 80 [0, 48, 144] =
      .ok [some ⟨false, 64, none, some 144⟩, some ⟨true, 16, none, none⟩,
        some ⟨false, 16, some 0, none⟩] :=
  ⟨by decide, rfl, rfl, rfl⟩

/-- C20 (deallocation without a merge partner changes only the flag) does not hold for the
code: lines 229-230 clear `previous` and `next` of the freed block, so the list is cut after
it.  Shown on the fresh heap of 144 bytes after two allocations, freeing the first block, and on
the well-formed list of three blocks in use, freeing the middle one. -/
theorem deallocation_clears_links :
    (construct 144).trace 4 [.allocate 16, .allocate 16] =
      .ok ([some 32, some 80], [(false, 16), (false, 16), (true, 16)]) ∧
    (construct 144).trace 4 [.allocate 16, .allocate 16, .deallocate 32] =
      .ok ([some 32, some 80], [(true, 16)]) ∧
    WellFormed threeUsed [0, 48, 96] ∧
    threeUsed.blocks 48 = some ⟨false, 16, some 0, some 96⟩ ∧
    threeUsed.headersAfterFree 80 [48] = .ok [some ⟨true, 16, none, none⟩] ∧
    threeUsed.trace 4 [.deallocate 80] = .ok ([], [(false, 16), (true, 16)]) :=
  ⟨rfl, rfl, by decide, rfl, rfl, rfl⟩

end MemoryManagement
